import Mathlib

/-!
Verification development for the sheet-music transcription pipeline:
the image conditioning / quality-assessment module (`imagePreprocessing`)
and the multi-pass recognition / validation / retry route (`read-music`).

Strings are modelled as `List Char`.  JavaScript float arithmetic is
idealised as exact rational arithmetic (`ℚ`); `Math.round` is
`fun q => ⌊q + 1/2⌋` (halves toward positive infinity, as in JS).
`Math.sqrt` is kept abstract: score functions take a square-root
function `sq : ℚ → ℚ` as a parameter, and theorems assume only that it
is nonnegative on nonnegative inputs, which every correctly rounded
float square root satisfies.  Whitespace classes and multiline regex
line starts are modelled over the ASCII repertoire (line starts at
newline characters).
-/

namespace MusicPipeline

/-- JS `Math.round`: round half toward positive infinity. -/
def jsRound (q : ℚ) : ℤ := ⌊q + 1/2⌋

/-! ## Image preprocessing (src/app/page.tsx, `imagePreprocessing` module) -/

/-- `clamp` from the source: `Math.max(0, Math.min(255, Math.round(value)))`. -/
def clamp (value : ℚ) : ℤ := max 0 (min 255 (jsRound value))

/-- The gain computed in `enhanceContrastData`:
`(259 * (factor * 255 + 255)) / (255 * (259 - factor * 255))`. -/
def contrastGain (factor : ℚ) : ℚ :=
  (259 * (factor * 255 + 255)) / (255 * (259 - factor * 255))

/-- One channel of the linear contrast stretch in `enhanceContrastData`:
`clamp(factor255 * (old - 128) + 128)`. -/
def enhancePixel (factor : ℚ) (old : ℚ) : ℤ :=
  clamp (contrastGain factor * (old - 128) + 128)

/-- Dimension computation of `preprocessImage` (lines 255-266): scale down
only when a dimension exceeds `maxDimension`, with
`scale = maxDimension / max(w, h)` and rounded products. -/
def computeNewSize (w h maxDimension : ℕ) : ℕ × ℕ :=
  if maxDimension < w ∨ maxDimension < h then
    let scale : ℚ := (maxDimension : ℚ) / (max w h : ℕ)
    ((jsRound ((w : ℚ) * scale)).toNat, (jsRound ((h : ℚ) * scale)).toNat)
  else (w, h)

/-- A decoded RGBA bitmap: `data` lists the channel bytes row-major,
four per pixel, as a `Uint8ClampedArray` does. -/
structure Bitmap where
  width : ℕ
  height : ℕ
  data : List ℕ

/-- Well-formedness of a decoded bitmap: the buffer has exactly
4 bytes per pixel, all byte-valued, and the area is positive
(a zero-area image is a decode error upstream). -/
def Bitmap.wf (b : Bitmap) : Prop :=
  b.data.length = 4 * b.width * b.height ∧ (∀ v ∈ b.data, v ≤ 255) ∧ 0 < b.width * b.height

/-- Grayscale of pixel `p` (linear index): `(data[4p] + data[4p+1] + data[4p+2]) / 3`. -/
def grayAt (b : Bitmap) (p : ℕ) : ℚ :=
  ((b.data.getD (4 * p) 0 : ℚ) + (b.data.getD (4 * p + 1) 0 : ℚ)
    + (b.data.getD (4 * p + 2) 0 : ℚ)) / 3

/-- The variance computed inside `measureContrast`:
`sumSq / n - mean * mean` with `n = data.length / 4`
(for a well-formed bitmap the JS division is exact). -/
def contrastVariance (b : Bitmap) : ℚ :=
  let n : ℚ := (b.data.length : ℚ) / 4
  let grays := (List.range (b.data.length / 4)).map (grayAt b)
  let mean := grays.sum / n
  (grays.map (fun g => g * g)).sum / n - mean * mean

/-- `measureContrast`: `min(1, sqrt(max(0, variance)) / 255 * 2)`,
with the float square root abstracted as `sq`. -/
def measureContrast (sq : ℚ → ℚ) (b : Bitmap) : ℚ :=
  min 1 (sq (max 0 (contrastVariance b)) / 255 * 2)

/-- A concrete nonnegative square-root function, used to instantiate
the abstract `sq` parameter in witnesses. -/
def ratSqrtApprox (q : ℚ) : ℚ := (Nat.sqrt q.num.toNat : ℚ)

/-- Laplacian at interior-pixel index `k` (row-major over the
`(width-2) * (height-2)` interior): `4*center - (up+down+left+right)`. -/
def laplacianAt (b : Bitmap) (k : ℕ) : ℚ :=
  let x := k % (b.width - 2) + 1
  let y := k / (b.width - 2) + 1
  4 * grayAt b (y * b.width + x) -
    (grayAt b ((y - 1) * b.width + x) + grayAt b ((y + 1) * b.width + x)
      + grayAt b (y * b.width + (x - 1)) + grayAt b (y * b.width + (x + 1)))

/-- `samples = Math.min(10000, (width - 2) * (height - 2))`. -/
def sharpnessSamples (b : Bitmap) : ℕ := min 10000 ((b.width - 2) * (b.height - 2))

/-- `step = Math.max(1, Math.floor(interior / samples))`
(natural division is the floored JS division). -/
def sharpnessStep (b : Bitmap) : ℕ :=
  max 1 ((b.width - 2) * (b.height - 2) / sharpnessSamples b)

/-- The accumulated `laplacian * laplacian` over the stride-sampled
interior pixels (`count++ % step !== 0` skips all other indices). -/
def laplacianSum (b : Bitmap) : ℚ :=
  (((List.range ((b.width - 2) * (b.height - 2))).filter
      (fun k => k % sharpnessStep b = 0)).map
    (fun k => laplacianAt b k * laplacianAt b k)).sum

/-- `measureSharpness`: Laplacian variance over a stride-sampled set of
interior pixels, `variance = laplacianSum / (samples || 1)`, normalised
by `min(1, variance / 500)`; degenerate images (either dimension < 3)
report the fixed neutral value 0.5. -/
def measureSharpness (b : Bitmap) : ℚ :=
  if b.width < 3 ∨ b.height < 3 then 1/2
  else
    min 1 (laplacianSum b
      / ((if sharpnessSamples b = 0 then 1 else sharpnessSamples b : ℕ) : ℚ) / 500)

/-- The quality report produced by `assessImageQuality`. -/
structure QualityReport where
  width : ℕ
  height : ℕ
  contrastScore : ℚ
  sharpnessScore : ℚ
  isAcceptable : Bool
  warnings : List String
  suggestions : List String
deriving Repr, DecidableEq

/-- The acceptability conjunction of `assessImageQuality` (line 218):
`contrastScore >= 0.1 && sharpnessScore >= 0.05 && width >= 300 && height >= 200`. -/
def isAcceptableOf (contrastScore sharpnessScore : ℚ) (width height : ℕ) : Bool :=
  decide (1/10 ≤ contrastScore) && decide (1/20 ≤ sharpnessScore)
    && decide (300 ≤ width) && decide (200 ≤ height)

/-- `assessImageQuality`: scores plus threshold-driven warnings and
suggestions, in source order (resolution, contrast, sharpness). -/
def assessImageQuality (sq : ℚ → ℚ) (b : Bitmap) : QualityReport :=
  let contrastScore := measureContrast sq b
  let sharpnessScore := measureSharpness b
  let resW : List String × List String :=
    if b.width < 400 ∨ b.height < 400 then
      (["Image resolution is low"], ["Use a higher resolution image for better accuracy"])
    else if b.width < 800 ∨ b.height < 800 then
      ([], ["Higher resolution may improve accuracy"])
    else ([], [])
  let conW : List String × List String :=
    if contrastScore < 15/100 then
      (["Very low contrast detected"],
        ["Ensure good lighting and a clear difference between notes and background"])
    else if contrastScore < 25/100 then
      ([], ["Consider using a scanner or improving lighting for better contrast"])
    else ([], [])
  let shW : List String × List String :=
    if sharpnessScore < 1/10 then
      (["Image appears blurry"], ["Hold camera steady or use a scanner for sharper results"])
    else if sharpnessScore < 2/10 then
      ([], ["Image could be sharper - try holding camera more steady"])
    else ([], [])
  { width := b.width
    height := b.height
    contrastScore := contrastScore
    sharpnessScore := sharpnessScore
    isAcceptable := isAcceptableOf contrastScore sharpnessScore b.width b.height
    warnings := resW.1 ++ conW.1 ++ shW.1
    suggestions := resW.2 ++ conW.2 ++ shW.2 }

/-- The downsampled canvas size used by `quickQualityCheck`:
`scale = Math.min(1, 500 / Math.max(w, h))`, rounded products. -/
def quickCheckDims (w h : ℕ) : ℕ × ℕ :=
  let scale : ℚ := min 1 (500 / (max w h : ℕ))
  ((jsRound ((w : ℚ) * scale)).toNat, (jsRound ((h : ℚ) * scale)).toNat)

/-- `quickQualityCheck`: assess the downsampled bitmap, then overwrite
the report's width/height with the original dimensions.  The resampled
pixel content is supplied by the caller (canvas `drawImage` output);
the theorems constrain only its dimensions. -/
def quickQualityCheck (sq : ℚ → ℚ) (origW origH : ℕ) (resampled : Bitmap) : QualityReport :=
  let report := assessImageQuality sq resampled
  { report with width := origW, height := origH }

/-! ## ABC validator (src/app/api/read-music/route.ts, `validateAndFixAbc`) -/

/-- The whitespace class used for JS `trim` and the regex `\s`,
over the ASCII repertoire. -/
def isWsChar (c : Char) : Bool := c = ' ' ∨ c = '\t' ∨ c = '\n' ∨ c = '\r' ∨ c = '\x0b' ∨ c = '\x0c'

/-- Drop a trailing whitespace run. -/
def trimRight (l : List Char) : List Char := (l.reverse.dropWhile isWsChar).reverse

/-- JS `String.prototype.trim`. -/
def jsTrim (l : List Char) : List Char := trimRight (l.dropWhile isWsChar)

/-- Case-insensitive match of the letters `abc` (the `i` flag of the fence regex). -/
def isAbcLetters (a b c : Char) : Bool :=
  (a = 'a' ∨ a = 'A') ∧ (b = 'b' ∨ b = 'B') ∧ (c = 'c' ∨ c = 'C')

/-- Scanner for the global replace of `/```abc\n?/gi` by the empty
string: scan left to right, removing each match and continuing after
it.  The Boolean records that a match just ended, so that its optional
trailing newline is still to be consumed. -/
def stripFenceAbcGo : Bool → List Char → List Char
  | true, '\n' :: rest => stripFenceAbcGo false rest
  | _, c1 :: c2 :: c3 :: c4 :: c5 :: c6 :: rest =>
    if c1 = '\x60' ∧ c2 = '\x60' ∧ c3 = '\x60' ∧ isAbcLetters c4 c5 c6 then
      stripFenceAbcGo true rest
    else c1 :: stripFenceAbcGo false (c2 :: c3 :: c4 :: c5 :: c6 :: rest)
  | _, c :: rest => c :: stripFenceAbcGo false rest
  | _, [] => []

/-- Global replace of `/```abc\n?/gi` by the empty string. -/
def stripFenceAbc (l : List Char) : List Char := stripFenceAbcGo false l

/-- Scanner for the global replace of `/```\n?/g`, with the same
pending-newline convention. -/
def stripTicksGo : Bool → List Char → List Char
  | true, '\n' :: rest => stripTicksGo false rest
  | _, c1 :: c2 :: c3 :: rest =>
    if c1 = '\x60' ∧ c2 = '\x60' ∧ c3 = '\x60' then stripTicksGo true rest
    else c1 :: stripTicksGo false (c2 :: c3 :: rest)
  | _, [c1, c2] => [c1, c2]
  | _, [c1] => [c1]
  | _, [] => []

/-- Global replace of `/```\n?/g` by the empty string. -/
def stripTicks (l : List Char) : List Char := stripTicksGo false l

/-- JS `split('\n')`. -/
def splitNl : List Char → List (List Char)
  | [] => [[]]
  | c :: rest =>
    if c = '\n' then [] :: splitNl rest
    else
      match splitNl rest with
      | [] => [[c]]
      | g :: gs => (c :: g) :: gs

/-- JS `join('\n')`. -/
def joinNl : List (List Char) → List Char
  | [] => []
  | g :: gs =>
    match gs with
    | [] => g
    | _ :: _ => g ++ '\n' :: joinNl gs

/-- Apply `f` to the last element of a list (used for suffix appends). -/
def modifyLast (f : List Char → List Char) : List (List Char) → List (List Char)
  | [] => []
  | g :: gs =>
    match gs with
    | [] => [f g]
    | _ :: _ => g :: modifyLast f gs

/-- JS `Array.prototype.splice(i, 0, a)`: insert `a` before index `i`. -/
def insertAt : ℕ → List Char → List (List Char) → List (List Char)
  | 0, a, l => a :: l
  | _ + 1, a, [] => [a]
  | n + 1, a, x :: xs => x :: insertAt n a xs

/-- First character class of the music-line regex `/^[A-Ga-gz\[\|V:]/`. -/
def isMusicChar (c : Char) : Bool :=
  ('A' ≤ c ∧ c ≤ 'G') ∨ ('a' ≤ c ∧ c ≤ 'g') ∨ c = 'z' ∨ c = '[' ∨ c = '|' ∨ c = 'V' ∨ c = ':'

/-- The header-line regex `/^[A-Z]:/`. -/
def isHeaderLine : List Char → Bool
  | c1 :: c2 :: _ => ('A' ≤ c1 ∧ c1 ≤ 'Z') ∧ c2 = ':'
  | _ => false

/-- The music-line predicate of the `K:` repair:
`/^[A-Ga-gz\[\|V:]/.test(line) && !/^[A-Z]:/.test(line)`. -/
def isMusicLine : List Char → Bool
  | [] => false
  | c :: rest => isMusicChar c && !isHeaderLine (c :: rest)

/-- JS `Array.prototype.findIndex`, as an `Option`-valued index. -/
def findMusicIdx : List (List Char) → Option ℕ
  | [] => none
  | line :: rest => if isMusicLine line then some 0 else (findMusicIdx rest).map (· + 1)

/-- The regex digit class `\d`. -/
def isDigitChar (c : Char) : Bool := '0' ≤ c ∧ c ≤ '9'

/-- `\s*\d`: after an optional whitespace run (which may cross newlines),
the next character is a digit. -/
def wsThenDigit (l : List Char) : Bool :=
  match l.dropWhile isWsChar with
  | d :: _ => isDigitChar d
  | [] => false

/-- Match of `X:\s*\d+` at the current position. -/
def matchXAt : List Char → Bool
  | c1 :: c2 :: rest => c1 = 'X' && c2 = ':' && wsThenDigit rest
  | _ => false

/-- Match of `K:` at the current position. -/
def matchKAt : List Char → Bool
  | c1 :: c2 :: _ => c1 = 'K' && c2 = ':'
  | _ => false

/-- Match of `M:` at the current position. -/
def matchMAt : List Char → Bool
  | c1 :: c2 :: _ => c1 = 'M' && c2 = ':'
  | _ => false

/-- Try `p` at every position that follows a newline. -/
def scanLineStarts (p : List Char → Bool) : List Char → Bool
  | [] => false
  | c :: rest => (c = '\n' && p rest) || scanLineStarts p rest

/-- A multiline-anchored regex test: try `p` at the string start and
after every newline. -/
def testMulti (p : List Char → Bool) (l : List Char) : Bool := p l || scanLineStarts p l

/-- The test `/^X:\s*\d+/m`. -/
def xTest (l : List Char) : Bool := testMulti matchXAt l

/-- The test `/^K:/m`. -/
def kTest (l : List Char) : Bool := testMulti matchKAt l

/-- The test `/^M:/m`. -/
def mTest (l : List Char) : Bool := testMulti matchMAt l

/-- Result of `validateAndFixAbc`. -/
structure FixResult where
  abc : List Char
  fixes : List String
deriving Repr, DecidableEq

/-- The line inserted when the `K:` header is missing. -/
def kHeaderLine : List Char := ['K', ':', 'C']

/-- Step 2 of `validateAndFixAbc`: ensure an `X:` header exists. -/
def xStep (s : List Char) : List Char × List String :=
  if xTest s then (s, [])
  else ('X' :: ':' :: '1' :: '\n' :: s, ["Added missing X:1 header"])

/-- Step 3 of `validateAndFixAbc`: if no `K:` header exists, insert `K:C`
before the first music line when that line's index is positive. -/
def kStep (s : List Char) : List Char × List String :=
  if kTest s then (s, [])
  else
    match findMusicIdx (splitNl s) with
    | some i =>
      if 0 < i then
        (joinNl (insertAt i kHeaderLine (splitNl s)),
          ["Added missing K:C header (defaulted to C major)"])
      else (s, [])
    | none => (s, [])

/-- Per-line bracket repair: on a non-header line with more `[` than `]`,
append the missing `]` and record one fix naming the 1-based line number. -/
def bracketFixLine (i : ℕ) (line : List Char) : List Char × List String :=
  if isHeaderLine line then (line, [])
  else
    let o := line.count '['
    let c := line.count ']'
    if c < o then
      (line ++ List.replicate (o - c) ']',
        ["Line " ++ toString (i + 1) ++ ": Closed " ++ toString (o - c) ++ " unclosed bracket(s)"])
    else (line, [])

/-- `lines.map((line, i) => ...)` for the bracket repair. -/
def bracketMapLines (i : ℕ) : List (List Char) → List (List Char × List String)
  | [] => []
  | line :: rest => bracketFixLine i line :: bracketMapLines (i + 1) rest

/-- Step 4 of `validateAndFixAbc`: bracket repair over all lines. -/
def bracketStep (s : List Char) : List Char × List String :=
  let results := bracketMapLines 0 (splitNl s)
  (joinNl (results.map Prod.fst), (results.map Prod.snd).flatten)

/-- Step 5 of `validateAndFixAbc`: close unmatched `{` at document end. -/
def braceStep (s : List Char) : List Char × List String :=
  let o := s.count '{'
  let c := s.count '}'
  if c < o then (s ++ List.replicate (o - c) '}', ["Closed unclosed grace note braces"])
  else (s, [])

/-- `validateAndFixAbc`: strip code fences and trim, then apply the four
repair steps, accumulating fixes in source order. -/
def validateAndFixAbc (abc : List Char) : FixResult :=
  let f1 := jsTrim (stripTicks (stripFenceAbc abc))
  let r2 := xStep f1
  let r3 := kStep r2.1
  let r4 := bracketStep r3.1
  let r5 := braceStep r4.1
  ⟨r5.1, r2.2 ++ r3.2 ++ r4.2 ++ r5.2⟩

/-- `hasCriticalErrors`: missing `X:`/`K:`/`M:` headers or content below
20 characters. -/
def hasCriticalErrors (abc : List Char) : List String :=
  (if xTest abc then [] else ["Missing X: header"]) ++
  (if kTest abc then [] else ["Missing K: (key) header"]) ++
  (if mTest abc then [] else ["Missing M: (time signature) header"]) ++
  (if abc.length < 20 then ["Response too short to be valid ABC notation"] else [])

/-- Outcome of the `read-music` POST handler. -/
inductive RouteResult where
  | ok (abc : List Char) (passes : ℕ) (fixes : List String)
  | serverError
deriving Repr, DecidableEq

/-- The multi-pass POST handler of `read-music`, as a function of the
three (trim-ready) engine response texts.  A missing response is the
empty string.  The retry response is consulted only when the critical
check fails after pass 2, matching the conditional third engine call. -/
def postModel (raw1 raw2 rawRetry : List Char) : RouteResult :=
  let pass1Abc := jsTrim raw1
  if pass1Abc = [] then RouteResult.serverError
  else
    let pass1Validated := validateAndFixAbc pass1Abc
    let pass2Raw := jsTrim raw2
    let pass2Abc := if pass2Raw = [] then pass1Validated.abc else pass2Raw
    let pass2Validated := validateAndFixAbc pass2Abc
    let criticalErrors := hasCriticalErrors pass2Validated.abc
    let finalAbc :=
      if criticalErrors = [] then pass2Validated.abc
      else
        let retryAbc := jsTrim rawRetry
        if retryAbc = [] then pass2Validated.abc
        else (validateAndFixAbc retryAbc).abc
    RouteResult.ok finalAbc 2 (pass1Validated.fixes ++ pass2Validated.fixes)

/-! ## Proof-side helper functions

These are not part of the source model; they are analysis tools used
to state and prove the idempotence of `validateAndFixAbc`. -/

/-- Number of leading backticks. -/
def headTicks : List Char → ℕ
  | c :: rest => if c = '\x60' then headTicks rest + 1 else 0
  | [] => 0

/-- Whether the text contains three consecutive backticks. -/
def hasTriple : List Char → Bool
  | [] => false
  | c :: rest => (c = '\x60' && 2 ≤ headTicks rest) || hasTriple rest

/-- The text transformation of `bracketFixLine` (its first component,
which does not depend on the line index). -/
def fixLine (line : List Char) : List Char :=
  if isHeaderLine line then line
  else
    let o := line.count '['
    let c := line.count ']'
    if c < o then line ++ List.replicate (o - c) ']' else line

/-- Line-list view of `\s*\d` continued across lines: skip whitespace
inside the current line remainder `t`, else walk into the next lines. -/
def wsdL : List Char → List (List Char) → Bool
  | t, [] => wsThenDigit t
  | t, m :: Ms =>
    match t.dropWhile isWsChar with
    | d :: _ => isDigitChar d
    | [] => wsdL m Ms

/-- Whether line `g` starts an `X:\s*\d` match that may continue into
the following lines `gs`. -/
def headXMatch (g : List Char) (gs : List (List Char)) : Bool :=
  match g with
  | c1 :: c2 :: t => c1 = 'X' && c2 = ':' && wsdL t gs
  | _ => false

/-- Line-list view of the multiline `X:` header test. -/
def xTestL : List (List Char) → Bool
  | [] => false
  | g :: gs => headXMatch g gs || xTestL gs

/-- Try a matcher at the start of every line suffix. -/
def linesTest (p : List Char → Bool) : List (List Char) → Bool
  | [] => false
  | g :: gs => p (joinNl (g :: gs)) || linesTest p gs

/-! ## Rounding helpers -/

theorem jsRound_nonneg {q : ℚ} (h : 0 ≤ q) : 0 ≤ jsRound q := by
  unfold jsRound
  exact Int.floor_nonneg.2 (by linarith)

theorem jsRound_le_of_lt {q : ℚ} {n : ℕ} (h : q < (n : ℚ) + 1/2) : jsRound q ≤ n := by
  unfold jsRound
  have : jsRound q < (n : ℤ) + 1 := by
    unfold jsRound
    rw [Int.floor_lt]
    push_cast
    linarith
  unfold jsRound at this
  omega

theorem jsRound_abs_sub_le {q : ℚ} (h : 0 ≤ q) : |(((jsRound q).toNat : ℕ) : ℚ) - q| ≤ 1/2 := by
  have h0 := jsRound_nonneg h
  have hcast : (((jsRound q).toNat : ℕ) : ℚ) = ((jsRound q : ℤ) : ℚ) := by
    exact_mod_cast congrArg (fun z : ℤ => (z : ℚ)) (Int.toNat_of_nonneg h0)
  rw [hcast]
  unfold jsRound
  have hle : ((⌊q + 1/2⌋ : ℤ) : ℚ) ≤ q + 1/2 := Int.floor_le _
  have hgt : q + 1/2 - 1 < ((⌊q + 1/2⌋ : ℤ) : ℚ) := Int.sub_one_lt_floor _
  rw [abs_le]
  constructor <;> linarith

/-! ## C3: the contrast stretch at factor 1.0 -/

/-- C3: the claim (and the source comment `1.0 = no change`) says the
linear contrast stretch with `contrastFactor = 1.0` is the identity up
to rounding.  The implemented gain at factor 1.0 is `259/2 = 129.5`,
not 1, and the stretch maps channel value 100 to 0 — a divergence of
100 levels, far beyond rounding error.  (At factor 0 the gain is 1 and
the map is the identity, confirming the formula plugs the factor in at
the wrong scale.)  This certifies the code bug at the failing input
`factor = 1.0, old = 100`. -/
theorem c3_factor_one_is_not_identity :
    contrastGain 1 = 259/2 ∧ enhancePixel 1 100 = 0 ∧ enhancePixel 1 100 ≠ 100
      ∧ contrastGain 0 = 1 ∧ enhancePixel 0 100 = 100 := by
  refine ⟨by norm_num [contrastGain], ?_, ?_, by norm_num [contrastGain], ?_⟩ <;>
    norm_num [enhancePixel, contrastGain, clamp, jsRound]

/-! ## C4: `preprocessImage` dimension invariants -/

/-- C4: the processed size never exceeds the original componentwise, is
exactly the original when both dimensions already fit in
`maxDimension`, and otherwise has both dimensions at most
`maxDimension` with each rounded from the exact common-scale value
(aspect ratio preserved within rounding). -/
theorem c4_computeNewSize_spec (w h maxD : ℕ) :
    (computeNewSize w h maxD).1 ≤ w ∧ (computeNewSize w h maxD).2 ≤ h
    ∧ (w ≤ maxD ∧ h ≤ maxD → computeNewSize w h maxD = (w, h))
    ∧ (maxD < w ∨ maxD < h →
        (computeNewSize w h maxD).1 ≤ maxD ∧ (computeNewSize w h maxD).2 ≤ maxD
        ∧ |((computeNewSize w h maxD).1 : ℚ) - w * ((maxD : ℚ) / (max w h : ℕ))| ≤ 1/2
        ∧ |((computeNewSize w h maxD).2 : ℚ) - h * ((maxD : ℚ) / (max w h : ℕ))| ≤ 1/2) := by
  by_cases hbig : maxD < w ∨ maxD < h
  · have hmn : 0 < max w h := by omega
    have hmpos : (0 : ℚ) < ((max w h : ℕ) : ℚ) := Nat.cast_pos.mpr hmn
    have key : ∀ d : ℕ, d ≤ max w h →
        ((jsRound ((d : ℚ) * ((maxD : ℚ) / (max w h : ℕ)))).toNat ≤ d
          ∧ (jsRound ((d : ℚ) * ((maxD : ℚ) / (max w h : ℕ)))).toNat ≤ maxD
          ∧ |(((jsRound ((d : ℚ) * ((maxD : ℚ) / (max w h : ℕ)))).toNat : ℕ) : ℚ)
              - d * ((maxD : ℚ) / (max w h : ℕ))| ≤ 1/2) := by
      intro d hd
      set q : ℚ := (d : ℚ) * ((maxD : ℚ) / (max w h : ℕ)) with hq
      have hq0 : 0 ≤ q := by
        rw [hq]
        positivity
      have hscale_lt : (maxD : ℚ) / ((max w h : ℕ) : ℚ) < 1 := by
        rw [div_lt_one hmpos]
        exact_mod_cast by omega
      have hqd : q ≤ (d : ℚ) := by
        rw [hq]
        calc (d : ℚ) * ((maxD : ℚ) / (max w h : ℕ)) ≤ (d : ℚ) * 1 :=
              mul_le_mul_of_nonneg_left (le_of_lt hscale_lt) (by positivity)
          _ = d := by ring
      have hqmax : q ≤ (maxD : ℚ) := by
        rw [hq, mul_div_assoc', div_le_iff₀ hmpos]
        have hdc : (d : ℚ) ≤ ((max w h : ℕ) : ℚ) := Nat.cast_le.mpr hd
        calc (d : ℚ) * maxD ≤ ((max w h : ℕ) : ℚ) * maxD :=
              mul_le_mul_of_nonneg_right hdc (by positivity)
          _ = (maxD : ℚ) * ((max w h : ℕ) : ℚ) := by ring
      refine ⟨?_, ?_, jsRound_abs_sub_le hq0⟩
      · have := jsRound_le_of_lt (q := q) (n := d) (by linarith)
        omega
      · have := jsRound_le_of_lt (q := q) (n := maxD) (by linarith)
        omega
    have e : computeNewSize w h maxD =
        ((jsRound ((w : ℚ) * ((maxD : ℚ) / (max w h : ℕ)))).toNat,
         (jsRound ((h : ℚ) * ((maxD : ℚ) / (max w h : ℕ)))).toNat) := by
      unfold computeNewSize
      rw [if_pos hbig]
    have kw := key w (le_max_left _ _)
    have kh := key h (le_max_right _ _)
    rw [e]
    exact ⟨kw.1, kh.1, fun hfits => by exfalso; omega,
      fun _ => ⟨kw.2.1, kh.2.1, kw.2.2, kh.2.2⟩⟩
  · have e : computeNewSize w h maxD = (w, h) := by
      unfold computeNewSize
      rw [if_neg hbig]
    rw [e]
    exact ⟨le_refl _, le_refl _, fun _ => rfl, fun hc => absurd hc hbig⟩

/-! ## C6: the acceptability conjunction and its boundaries -/

/-- C6: `isAcceptable` is exactly the conjunction
`contrast ≥ 0.10 ∧ sharpness ≥ 0.05 ∧ width ≥ 300 ∧ height ≥ 200`, the
report computes it from the two scores and the bitmap dimensions, and
exactly the conjunction flips at each listed boundary (width 300/299,
height 200/199, contrast 0.10/0.099, sharpness 0.05/0.049). -/
theorem c6_isAcceptable_boundaries :
    (∀ (sq : ℚ → ℚ) (b : Bitmap), (assessImageQuality sq b).isAcceptable
        = isAcceptableOf (measureContrast sq b) (measureSharpness b) b.width b.height)
    ∧ (∀ (c s : ℚ) (w h : ℕ),
        isAcceptableOf c s w h = true ↔ (1/10 ≤ c ∧ 1/20 ≤ s ∧ 300 ≤ w ∧ 200 ≤ h))
    ∧ (isAcceptableOf (10/100) (5/100) 300 200 = true
      ∧ isAcceptableOf (99/1000) (5/100) 300 200 = false
      ∧ isAcceptableOf (10/100) (49/1000) 300 200 = false
      ∧ isAcceptableOf (10/100) (5/100) 299 200 = false
      ∧ isAcceptableOf (10/100) (5/100) 300 199 = false) := by
  have hiff : ∀ (c s : ℚ) (w h : ℕ),
      isAcceptableOf c s w h = true ↔ (1/10 ≤ c ∧ 1/20 ≤ s ∧ 300 ≤ w ∧ 200 ≤ h) := by
    intro c s w h
    simp [isAcceptableOf, and_assoc]
  refine ⟨fun sq b => rfl, hiff, ?_, ?_, ?_, ?_, ?_⟩
  · rw [hiff]
    norm_num
  all_goals
    rw [← Bool.not_eq_true, hiff]
    norm_num

/-! ## C8: score ranges -/

theorem laplacianSum_nonneg (b : Bitmap) : 0 ≤ laplacianSum b := by
  unfold laplacianSum
  apply List.sum_nonneg
  intro x hx
  rcases List.mem_map.1 hx with ⟨k, _, rfl⟩
  exact mul_self_nonneg _

/-- C8: for every valid bitmap, both scores lie in `[0, 1]`, and
whenever either dimension is strictly less than 3 the sharpness score
is exactly the neutral 0.5. -/
theorem c8_score_ranges (sq : ℚ → ℚ) (b : Bitmap)
    (hsq : ∀ q : ℚ, 0 ≤ q → 0 ≤ sq q) (hwf : b.wf) :
    (0 ≤ measureContrast sq b ∧ measureContrast sq b ≤ 1)
    ∧ (0 ≤ measureSharpness b ∧ measureSharpness b ≤ 1)
    ∧ ((b.width < 3 ∨ b.height < 3) → measureSharpness b = 1/2) := by
  refine ⟨⟨?_, min_le_left _ _⟩, ⟨?_, ?_⟩, ?_⟩
  · unfold measureContrast
    apply le_min (by norm_num)
    have h1 : 0 ≤ sq (max 0 (contrastVariance b)) := hsq _ (le_max_left _ _)
    have h2 : 0 ≤ sq (max 0 (contrastVariance b)) / 255 := div_nonneg h1 (by norm_num)
    linarith
  · unfold measureSharpness
    split
    · norm_num
    · apply le_min (by norm_num)
      apply div_nonneg _ (by norm_num)
      apply div_nonneg (laplacianSum_nonneg b)
      positivity
  · unfold measureSharpness
    split
    · norm_num
    · exact min_le_left _ _
  · intro hdeg
    unfold measureSharpness
    rw [if_pos hdeg]

/-! ## C9: `quickQualityCheck` scores the downsampled canvas -/

theorem lowres_warning_mem (sq : ℚ → ℚ) (b : Bitmap)
    (hcond : b.width < 400 ∨ b.height < 400) :
    "Image resolution is low" ∈ (assessImageQuality sq b).warnings := by
  unfold assessImageQuality
  simp only
  rw [if_pos hcond]
  simp

/-- C9: `quickQualityCheck` assesses a canvas downsampled to at most
500 px on the long edge and only afterwards overwrites the report's
width/height with the original dimensions; hence whenever the original
long edge exceeds 500 px and the downsampled short edge falls below
400 px, the low-resolution warning is present even though the reported
size is the (arbitrarily large) original one. -/
theorem c9_quick_check_downsampled_warning (sq : ℚ → ℚ) (w h : ℕ) (b : Bitmap)
    (hlong : 500 < max w h)
    (hw : b.width = (quickCheckDims w h).1)
    (hh : b.height = (quickCheckDims w h).2)
    (hshort : min (quickCheckDims w h).1 (quickCheckDims w h).2 < 400) :
    "Image resolution is low" ∈ (quickQualityCheck sq w h b).warnings
    ∧ (quickQualityCheck sq w h b).width = w
    ∧ (quickQualityCheck sq w h b).height = h := by
  have hcond : b.width < 400 ∨ b.height < 400 := by
    rw [hw, hh]
    omega
  exact ⟨lowres_warning_mem sq b hcond, rfl, rfl⟩

/-- Witness for C4 at concrete sizes: a 3000x4000 image is scaled to
1536x2048 under `maxDimension = 2048` (both bounds and the equality
branch are obtained from the theorem). -/
theorem c4_computeNewSize_witness :
    (computeNewSize 3000 4000 2048).1 ≤ 3000 ∧ (computeNewSize 3000 4000 2048).2 ≤ 4000
    ∧ (computeNewSize 3000 4000 2048).1 ≤ 2048 ∧ (computeNewSize 3000 4000 2048).2 ≤ 2048
    ∧ computeNewSize 300 400 2048 = (300, 400) := by
  have h := c4_computeNewSize_spec 3000 4000 2048
  have h2 := c4_computeNewSize_spec 300 400 2048
  have hbig : 2048 < 3000 ∨ 2048 < 4000 := by omega
  exact ⟨h.1, h.2.1, (h.2.2.2 hbig).1, (h.2.2.2 hbig).2.1, h2.2.2.1 (by omega)⟩

/-- Witness for C6: the all-boundary point is acceptable. -/
theorem c6_isAcceptable_witness : isAcceptableOf (10/100) (5/100) 300 200 = true :=
  c6_isAcceptable_boundaries.2.2.1

/-- Witness for C8 at a concrete 1x1 bitmap and a concrete square root. -/
theorem c8_score_ranges_witness :
    (Bitmap.wf ⟨1, 1, [10, 20, 30, 255]⟩)
    ∧ ((0 ≤ measureContrast ratSqrtApprox ⟨1, 1, [10, 20, 30, 255]⟩
          ∧ measureContrast ratSqrtApprox ⟨1, 1, [10, 20, 30, 255]⟩ ≤ 1)
        ∧ (0 ≤ measureSharpness ⟨1, 1, [10, 20, 30, 255]⟩
          ∧ measureSharpness ⟨1, 1, [10, 20, 30, 255]⟩ ≤ 1)
        ∧ ((1 < 3 ∨ 1 < 3) → measureSharpness ⟨1, 1, [10, 20, 30, 255]⟩ = 1/2)) := by
  have hwf : Bitmap.wf ⟨1, 1, [10, 20, 30, 255]⟩ := by
    refine ⟨rfl, ?_, by norm_num⟩
    intro v hv
    simp only [List.mem_cons, List.not_mem_nil, or_false] at hv
    rcases hv with rfl | rfl | rfl | rfl <;> norm_num
  exact ⟨hwf, c8_score_ranges ratSqrtApprox ⟨1, 1, [10, 20, 30, 255]⟩
    (fun q _ => Nat.cast_nonneg _) hwf⟩

/-- Witness for C9 at a 2000x100 original: the quick check downsamples
to 500x25, so the low-resolution warning fires although the reported
size is 2000x100. -/
theorem c9_quick_check_witness :
    500 < max 2000 100
    ∧ min (quickCheckDims 2000 100).1 (quickCheckDims 2000 100).2 < 400
    ∧ "Image resolution is low"
        ∈ (quickQualityCheck ratSqrtApprox 2000 100 ⟨500, 25, []⟩).warnings
    ∧ (quickQualityCheck ratSqrtApprox 2000 100 ⟨500, 25, []⟩).width = 2000
    ∧ (quickQualityCheck ratSqrtApprox 2000 100 ⟨500, 25, []⟩).height = 100 := by
  have hdims : quickCheckDims 2000 100 = (500, 25) := by
    unfold quickCheckDims
    have hmax : (max 2000 100 : ℕ) = 2000 := by norm_num
    rw [hmax]
    have hmin : min (1 : ℚ) (500 / ((2000 : ℕ) : ℚ)) = 1/4 := by
      rw [min_eq_right] <;> norm_num
    rw [hmin]
    unfold jsRound
    norm_num
    exact ⟨rfl, rfl⟩
  have h := c9_quick_check_downsampled_warning ratSqrtApprox 2000 100 ⟨500, 25, []⟩
    (by norm_num) (by rw [hdims]) (by rw [hdims]) (by rw [hdims]; norm_num)
  exact ⟨by norm_num, by rw [hdims]; norm_num, h.1, h.2.1, h.2.2⟩

/-! ## C1: the `passes` field -/

/-- C1: the claim (and the spec) says the `passes` field is 3 when the
content-driven retry pass executed.  At engine outputs that lack an
`M:` header on both passes, the critical check is nonempty, the retry
response is consulted (the returned text is the validated retry
output), and yet the response still reports the hard-coded
`passes = 2`.  This certifies the code bug at that failing input. -/
theorem c1_passes_hardcoded_two :
    postModel "C D E F G A B c d|".toList "C D E F G A B c d|".toList
        "X:1\nM:4/4\nK:C\nCDEF|".toList
      = RouteResult.ok "X:1\nM:4/4\nK:C\nCDEF|".toList 2
          ["Added missing X:1 header", "Added missing K:C header (defaulted to C major)",
           "Added missing X:1 header", "Added missing K:C header (defaulted to C major)"]
    ∧ hasCriticalErrors (validateAndFixAbc (jsTrim "C D E F G A B c d|".toList)).abc ≠ [] := by
  constructor <;> decide

/-! ## C10: composition of the response fixes -/

/-- C10: for every successful request, the response's `fixes` array is
exactly the pass-1 validation fixes followed by the pass-2 validation
fixes (so fixes applied while validating the retry output never appear
in it), and when the critical check fails but the retry engine
response is empty, the final text silently remains the pass-2
validated text. -/
theorem c10_fixes_concatenation (raw1 raw2 rawRetry : List Char) (h1 : jsTrim raw1 ≠ []) :
    (∃ finalAbc, postModel raw1 raw2 rawRetry
        = RouteResult.ok finalAbc 2
            ((validateAndFixAbc (jsTrim raw1)).fixes
              ++ (validateAndFixAbc (if jsTrim raw2 = []
                    then (validateAndFixAbc (jsTrim raw1)).abc else jsTrim raw2)).fixes))
    ∧ (hasCriticalErrors (validateAndFixAbc (if jsTrim raw2 = []
            then (validateAndFixAbc (jsTrim raw1)).abc else jsTrim raw2)).abc ≠ [] →
        jsTrim rawRetry = [] →
        postModel raw1 raw2 rawRetry
          = RouteResult.ok
              (validateAndFixAbc (if jsTrim raw2 = []
                then (validateAndFixAbc (jsTrim raw1)).abc else jsTrim raw2)).abc 2
              ((validateAndFixAbc (jsTrim raw1)).fixes
                ++ (validateAndFixAbc (if jsTrim raw2 = []
                      then (validateAndFixAbc (jsTrim raw1)).abc else jsTrim raw2)).fixes)) := by
  simp only [postModel]
  rw [if_neg h1]
  refine ⟨⟨_, rfl⟩, fun hc hr => ?_⟩
  rw [if_neg hc, if_pos hr]

/-- Witness for C10 at concrete engine outputs (critical errors present,
empty retry response). -/
theorem c10_fixes_concatenation_witness :
    jsTrim "C D E F G A B c d|".toList ≠ []
    ∧ postModel "C D E F G A B c d|".toList "C D E F G A B c d|".toList "".toList
        = RouteResult.ok (validateAndFixAbc (if jsTrim "C D E F G A B c d|".toList = []
              then (validateAndFixAbc (jsTrim "C D E F G A B c d|".toList)).abc
              else jsTrim "C D E F G A B c d|".toList)).abc 2
            ((validateAndFixAbc (jsTrim "C D E F G A B c d|".toList)).fixes
              ++ (validateAndFixAbc (if jsTrim "C D E F G A B c d|".toList = []
                    then (validateAndFixAbc (jsTrim "C D E F G A B c d|".toList)).abc
                    else jsTrim "C D E F G A B c d|".toList)).fixes) := by
  refine ⟨by decide, ?_⟩
  exact (c10_fixes_concatenation "C D E F G A B c d|".toList "C D E F G A B c d|".toList
    "".toList (by decide)).2 (by decide) (by decide)

/-! ## C2 counterexample: repair is not idempotent on fence/whitespace-only input -/

/-- C2 counterexample: on the empty input the repair returns `"X:1\n"`
(the prepended header keeps a trailing newline because the stripped
input was empty), and repairing that output trims the newline away,
yielding `"X:1"`.  So `repair(repair(x)) = repair(x)` fails at
`x = ""`, refuting the claim as stated for arbitrary text. -/
theorem c2_not_idempotent_on_empty_input :
    (validateAndFixAbc ((validateAndFixAbc "".toList).abc)).abc ≠ (validateAndFixAbc "".toList).abc
    ∧ (validateAndFixAbc "".toList).abc = "X:1\n".toList
    ∧ (validateAndFixAbc ((validateAndFixAbc "".toList).abc)).abc = "X:1".toList := by
  refine ⟨?_, ?_, ?_⟩ <;> decide

/-! ## C5 counterexample: the pass-1 fallback is not always returned verbatim -/

/-- C5 counterexample: with an empty pass-2 response the orchestrator
does fall back to the pass-1 validated text, but that text is not
necessarily the final text of the response: here it lacks an `M:`
header, so the critical check triggers the retry and the validated
retry output is returned instead. -/
theorem c5_fallback_can_be_replaced_by_retry :
    postModel "C D E F G A B c d|".toList "".toList "X:1\nM:4/4\nK:C\nCDEF|".toList
      = RouteResult.ok "X:1\nM:4/4\nK:C\nCDEF|".toList 2
          ["Added missing X:1 header", "Added missing K:C header (defaulted to C major)"]
    ∧ "X:1\nM:4/4\nK:C\nCDEF|".toList
        ≠ (validateAndFixAbc (jsTrim "C D E F G A B c d|".toList)).abc := by
  constructor <;> decide

/-! ## C7 counterexample: the scenario records two fixes, not three -/

/-- C7 counterexample: on a headered text with two unclosed `[` on one
non-header line and one unclosed `{` overall, the repair does append
exactly two `]` to that line and one `}` at the end of the document,
but it records only two fixes — one per-line bracket fix covering both
closers, plus the brace fix — not three as claimed. -/
theorem c7_scenario_records_two_fixes :
    validateAndFixAbc "X:1\nK:C\n[CE [GB|\n\x7bAB".toList
      = ⟨"X:1\nK:C\n[CE [GB|]]\n{AB}".toList,
         ["Line 3: Closed 2 unclosed bracket(s)", "Closed unclosed grace note braces"]⟩
    ∧ (validateAndFixAbc "X:1\nK:C\n[CE [GB|\n\x7bAB".toList).fixes.length ≠ 3 := by
  constructor <;> decide

/-! ## Backtick toolkit: the fence strippers never leave three
consecutive backticks, and act as the identity when none are present -/

theorem headTicks_cons (c : Char) (l : List Char) :
    headTicks (c :: l) = if c = '\x60' then headTicks l + 1 else 0 := rfl

theorem hasTriple_cons (c : Char) (l : List Char) :
    hasTriple (c :: l) = ((c = '\x60' && 2 ≤ headTicks l) || hasTriple l) := rfl

theorem headTicks_append_cons_ne {c : Char} (h : c ≠ '\x60') (u v : List Char) :
    headTicks (u ++ c :: v) = headTicks u := by
  induction u with
  | nil => simp [headTicks_cons, headTicks, h]
  | cons x u ih => by_cases hx : x = '\x60' <;> simp [headTicks_cons, hx, ih]

theorem headTicks_append_all_ne {s : List Char} (h : ∀ c ∈ s, c ≠ '\x60') (u : List Char) :
    headTicks (u ++ s) = headTicks u := by
  cases s with
  | nil => simp
  | cons c t => exact headTicks_append_cons_ne (h c (by simp)) u t

theorem hasTriple_all_ne {s : List Char} (h : ∀ c ∈ s, c ≠ '\x60') : hasTriple s = false := by
  induction s with
  | nil => rfl
  | cons c t ih =>
    have hc : c ≠ '\x60' := h c (by simp)
    simp only [hasTriple_cons, hc, decide_eq_true_eq]
    simp [hc, ih (fun x hx => h x (by simp [hx]))]

theorem hasTriple_append_sep (u v : List Char) :
    hasTriple (u ++ '\n' :: v) = (hasTriple u || hasTriple v) := by
  induction u with
  | nil =>
    simp [hasTriple_cons, hasTriple]
  | cons c u ih =>
    rw [List.cons_append, hasTriple_cons, hasTriple_cons, ih,
      headTicks_append_cons_ne (by decide) u v]
    cases hasTriple u <;> cases hasTriple v <;> simp

theorem hasTriple_append_all_ne {s : List Char} (h : ∀ c ∈ s, c ≠ '\x60') (u : List Char) :
    hasTriple (u ++ s) = hasTriple u := by
  induction u with
  | nil => simp [hasTriple_all_ne h, hasTriple]
  | cons c u ih =>
    rw [List.cons_append, hasTriple_cons, hasTriple_cons, ih, headTicks_append_all_ne h]

theorem stripTicksGo_spec (fl : Bool) (l : List Char) :
    hasTriple (stripTicksGo fl l) = false
    ∧ headTicks (stripTicksGo fl l) ≤ 2
    ∧ (fl = false → headTicks (stripTicksGo fl l) ≤ headTicks l) := by
  induction fl, l using stripTicksGo.induct with
  | case1 rest ih =>
    have e : stripTicksGo true ('\n' :: rest) = stripTicksGo false rest := by
      simp [stripTicksGo]
    rw [e]
    exact ⟨ih.1, ih.2.1, fun h => by cases h⟩
  | case2 x c1 c2 c3 rest hx hcond ih =>
    obtain ⟨rfl, rfl, rfl⟩ := hcond
    have e : stripTicksGo x ('\x60' :: '\x60' :: '\x60' :: rest) = stripTicksGo true rest := by
      cases x <;> simp [stripTicksGo]
    rw [e]
    refine ⟨ih.1, ih.2.1, fun _ => le_trans ih.2.1 ?_⟩
    simp [headTicks_cons]
  | case3 x c1 c2 c3 rest hx hcond ih =>
    have e : stripTicksGo x (c1 :: c2 :: c3 :: rest)
        = c1 :: stripTicksGo false (c2 :: c3 :: rest) := by
      cases x with
      | false => simp [stripTicksGo, hcond]
      | true =>
        have hc1 : ¬ c1 = '\n' := fun h => hx rfl h
        simp [stripTicksGo, hcond, hc1]
    rw [e]
    obtain ⟨ih1, ih2, ih3⟩ := ih
    have ih3' := ih3 rfl
    by_cases hb : c1 = '\x60'
    · have htail : headTicks (c2 :: c3 :: rest) ≤ 1 := by
        by_cases h2 : c2 = '\x60'
        · by_cases h3 : c3 = '\x60'
          · exact absurd ⟨hb, h2, h3⟩ hcond
          · simp [headTicks_cons, h2, h3]
        · simp [headTicks_cons, h2]
      have htt : headTicks (stripTicksGo false (c2 :: c3 :: rest)) ≤ 1 :=
        le_trans ih3' htail
      refine ⟨?_, ?_, fun _ => ?_⟩
      · rw [hasTriple_cons, ih1]
        simp only [Bool.or_false]
        simp [hb]
        omega
      · simp [headTicks_cons, hb]
        omega
      · rw [headTicks_cons c1 (stripTicksGo false (c2 :: c3 :: rest)),
          headTicks_cons c1 (c2 :: c3 :: rest)]
        simp only [hb, if_true]
        omega
    · refine ⟨?_, ?_, fun _ => ?_⟩
      · rw [hasTriple_cons, ih1]
        simp [hb]
      · simp [headTicks_cons, hb]
      · simp [headTicks_cons, hb]
  | case4 x c1 c2 hx =>
    have e : stripTicksGo x [c1, c2] = [c1, c2] := by
      cases x with
      | false => simp [stripTicksGo]
      | true =>
        have hc1 : ¬ c1 = '\n' := fun h => hx rfl h
        simp [stripTicksGo, hc1]
    rw [e]
    refine ⟨?_, ?_, fun _ => le_refl _⟩
    · by_cases h1 : c1 = '\x60' <;> by_cases h2 : c2 = '\x60' <;>
        simp [hasTriple_cons, hasTriple, headTicks_cons, headTicks, h1, h2]
    · by_cases h1 : c1 = '\x60' <;> by_cases h2 : c2 = '\x60' <;>
        simp [headTicks_cons, headTicks, h1, h2]
  | case5 x c1 hx =>
    have e : stripTicksGo x [c1] = [c1] := by
      cases x with
      | false => simp [stripTicksGo]
      | true =>
        have hc1 : ¬ c1 = '\n' := fun h => hx rfl h
        simp [stripTicksGo, hc1]
    rw [e]
    refine ⟨?_, ?_, fun _ => le_refl _⟩
    · by_cases h1 : c1 = '\x60' <;>
        simp [hasTriple_cons, hasTriple, headTicks, h1]
    · by_cases h1 : c1 = '\x60' <;> simp [headTicks_cons, headTicks, h1]
  | case6 x =>
    have e : stripTicksGo x [] = [] := by cases x <;> simp [stripTicksGo]
    rw [e]
    exact ⟨rfl, by simp [headTicks], fun _ => le_refl _⟩

theorem hasTriple_stripTicks (l : List Char) : hasTriple (stripTicks l) = false :=
  (stripTicksGo_spec false l).1

theorem stripTicksGo_cons_of_no_triple {c : Char} {rest : List Char}
    (h : (decide (c = '\x60') && decide (2 ≤ headTicks rest)) = false) :
    stripTicksGo false (c :: rest) = c :: stripTicksGo false rest := by
  match rest with
  | [] => simp [stripTicksGo]
  | [c2] => simp [stripTicksGo]
  | c2 :: c3 :: r =>
    have hcond : ¬(c = '\x60' ∧ c2 = '\x60' ∧ c3 = '\x60') := by
      rintro ⟨rfl, rfl, rfl⟩
      simp [headTicks_cons] at h
    simp [stripTicksGo, hcond]

theorem stripTicks_id {l : List Char} (h : hasTriple l = false) : stripTicks l = l := by
  unfold stripTicks
  induction l with
  | nil => rfl
  | cons c rest ih =>
    rw [hasTriple_cons] at h
    rcases Bool.or_eq_false_iff.mp h with ⟨h1, h2⟩
    rw [stripTicksGo_cons_of_no_triple h1, ih h2]

theorem stripFenceAbcGo_cons_of_no_triple {c : Char} {rest : List Char}
    (h : (decide (c = '\x60') && decide (2 ≤ headTicks rest)) = false) :
    stripFenceAbcGo false (c :: rest) = c :: stripFenceAbcGo false rest := by
  match rest with
  | c2 :: c3 :: c4 :: c5 :: c6 :: r =>
    have hcond : ¬(c = '\x60' ∧ c2 = '\x60' ∧ c3 = '\x60' ∧ isAbcLetters c4 c5 c6) := by
      rintro ⟨rfl, rfl, rfl, -⟩
      simp [headTicks_cons] at h
    simp [stripFenceAbcGo, hcond]
  | [] => simp [stripFenceAbcGo]
  | [c2] => simp [stripFenceAbcGo]
  | [c2, c3] => simp [stripFenceAbcGo]
  | [c2, c3, c4] => simp [stripFenceAbcGo]
  | [c2, c3, c4, c5] => simp [stripFenceAbcGo]

theorem stripFenceAbc_id {l : List Char} (h : hasTriple l = false) : stripFenceAbc l = l := by
  unfold stripFenceAbc
  induction l with
  | nil => rfl
  | cons c rest ih =>
    rw [hasTriple_cons] at h
    rcases Bool.or_eq_false_iff.mp h with ⟨h1, h2⟩
    rw [stripFenceAbcGo_cons_of_no_triple h1, ih h2]

/-! ## Split/join toolkit -/

theorem splitNl_ne_nil (l : List Char) : splitNl l ≠ [] := by
  cases l with
  | nil => simp [splitNl]
  | cons c rest =>
    by_cases h : c = '\n'
    · simp [splitNl, h]
    · simp only [splitNl, h, if_false]
      split <;> simp

theorem joinNl_single (g : List Char) : joinNl [g] = g := rfl

theorem joinNl_cons₂ (g g2 : List Char) (gs : List (List Char)) :
    joinNl (g :: g2 :: gs) = g ++ '\n' :: joinNl (g2 :: gs) := rfl

theorem splitNl_nl (l : List Char) : splitNl ('\n' :: l) = [] :: splitNl l := by
  simp [splitNl]

theorem splitNl_cons_ne {c : Char} (h : c ≠ '\n') (l : List Char) {g : List Char}
    {gs : List (List Char)} (hl : splitNl l = g :: gs) :
    splitNl (c :: l) = (c :: g) :: gs := by
  simp [splitNl, h, hl]

theorem joinNl_splitNl (l : List Char) : joinNl (splitNl l) = l := by
  induction l with
  | nil => rfl
  | cons c rest ih =>
    by_cases h : c = '\n'
    · subst h
      rw [splitNl_nl]
      cases hr : splitNl rest with
      | nil => exact absurd hr (splitNl_ne_nil rest)
      | cons g gs =>
        rw [joinNl_cons₂, ← hr, ih]
        simp
    · cases hr : splitNl rest with
      | nil => exact absurd hr (splitNl_ne_nil rest)
      | cons g gs =>
        rw [splitNl_cons_ne h rest hr]
        cases gs with
        | nil =>
          rw [joinNl_single]
          have h2 := ih
          rw [hr, joinNl_single] at h2
          rw [h2]
        | cons g2 gs2 =>
          rw [joinNl_cons₂]
          have h2 := ih
          rw [hr, joinNl_cons₂] at h2
          rw [List.cons_append, h2]

theorem mem_splitNl_no_nl {l m : List Char} (hm : m ∈ splitNl l) : '\n' ∉ m := by
  induction l generalizing m with
  | nil =>
    simp [splitNl] at hm
    subst hm
    simp
  | cons c rest ih =>
    by_cases h : c = '\n'
    · subst h
      rw [splitNl_nl] at hm
      rcases List.mem_cons.mp hm with rfl | hm2
      · simp
      · exact ih hm2
    · cases hr : splitNl rest with
      | nil => exact absurd hr (splitNl_ne_nil rest)
      | cons g gs =>
        rw [splitNl_cons_ne h rest hr] at hm
        rcases List.mem_cons.mp hm with rfl | hm2
        · intro hmem
          rcases List.mem_cons.mp hmem with h1 | h2
          · exact h h1.symm
          · exact ih (by rw [hr]; exact List.mem_cons_self g gs) h2
        · exact ih (by rw [hr]; exact List.mem_cons_of_mem g hm2)

theorem splitNl_no_nl {g : List Char} (h : '\n' ∉ g) : splitNl g = [g] := by
  induction g with
  | nil => rfl
  | cons c t ih =>
    have hc : c ≠ '\n' := fun hc => h (by simp [hc])
    have ht : '\n' ∉ t := fun hmem => h (by simp [hmem])
    exact splitNl_cons_ne hc t (ih ht)

theorem splitNl_append_sep {g : List Char} (h : '\n' ∉ g) (v : List Char) :
    splitNl (g ++ '\n' :: v) = g :: splitNl v := by
  induction g with
  | nil => simp [splitNl_nl]
  | cons c t ih =>
    have hc : c ≠ '\n' := fun hc => h (by simp [hc])
    have ht : '\n' ∉ t := fun hmem => h (by simp [hmem])
    rw [List.cons_append]
    exact splitNl_cons_ne hc _ (ih ht)

theorem splitNl_joinNl {L : List (List Char)} (hL : L ≠ [])
    (h : ∀ m ∈ L, '\n' ∉ m) : splitNl (joinNl L) = L := by
  induction L with
  | nil => exact absurd rfl hL
  | cons g gs ih =>
    cases gs with
    | nil =>
      rw [joinNl_single]
      exact splitNl_no_nl (h g (by simp))
    | cons g2 gs2 =>
      rw [joinNl_cons₂, splitNl_append_sep (h g (by simp))]
      rw [ih (by simp) (fun m hm => h m (List.mem_cons_of_mem _ hm))]

theorem joinNl_append_sep {u v : List (List Char)} (hu : u ≠ []) (hv : v ≠ []) :
    joinNl (u ++ v) = joinNl u ++ '\n' :: joinNl v := by
  induction u with
  | nil => exact absurd rfl hu
  | cons g gs ih =>
    cases gs with
    | nil =>
      cases v with
      | nil => exact absurd rfl hv
      | cons v1 vs =>
        rw [joinNl_single, List.singleton_append, joinNl_cons₂]
    | cons g2 gs2 =>
      have e1 : (g :: g2 :: gs2) ++ v = g :: ((g2 :: gs2) ++ v) := rfl
      have e2 : (g2 :: gs2) ++ v = g2 :: (gs2 ++ v) := rfl
      rw [e1, e2, joinNl_cons₂, ← e2, ih (by simp), joinNl_cons₂]
      simp

theorem count_joinNl {ch : Char} (h : ch ≠ '\n') (L : List (List Char)) :
    (joinNl L).count ch = (L.map (List.count ch)).sum := by
  induction L with
  | nil => simp [joinNl]
  | cons g gs ih =>
    cases gs with
    | nil => simp [joinNl_single]
    | cons g2 gs2 =>
      rw [joinNl_cons₂, List.count_append, List.count_cons, ih]
      have hne : (('\n' : Char) == ch) = false := by
        simp [Ne.symm h]
      rw [hne]
      simp

theorem modifyLast_single (f : List Char → List Char) (g : List Char) :
    modifyLast f [g] = [f g] := rfl

theorem modifyLast_cons₂ (f : List Char → List Char) (g g2 : List Char)
    (gs : List (List Char)) :
    modifyLast f (g :: g2 :: gs) = g :: modifyLast f (g2 :: gs) := rfl

theorem modifyLast_ne_nil (f : List Char → List Char) {L : List (List Char)} (h : L ≠ []) :
    modifyLast f L ≠ [] := by
  cases L with
  | nil => exact absurd rfl h
  | cons g gs => cases gs <;> simp [modifyLast_single, modifyLast_cons₂]

theorem splitNl_append_no_nl {s : List Char} (hs : '\n' ∉ s) (a : List Char) :
    splitNl (a ++ s) = modifyLast (fun m => m ++ s) (splitNl a) := by
  induction a with
  | nil =>
    rw [List.nil_append, splitNl_no_nl hs]
    simp [splitNl, modifyLast_single]
  | cons c t ih =>
    by_cases h : c = '\n'
    · subst h
      rw [List.cons_append, splitNl_nl, splitNl_nl, ih]
      cases hr : splitNl t with
      | nil => exact absurd hr (splitNl_ne_nil t)
      | cons g gs => rw [modifyLast_cons₂]
    · cases hr : splitNl t with
      | nil => exact absurd hr (splitNl_ne_nil t)
      | cons g gs =>
        cases gs with
        | nil =>
          have hts : splitNl (t ++ s) = [g ++ s] := by
            rw [ih, hr, modifyLast_single]
          rw [List.cons_append, splitNl_cons_ne h _ hts,
            splitNl_cons_ne h _ hr, modifyLast_single, List.cons_append]
        | cons g2 gs2 =>
          have hts : splitNl (t ++ s) = (g :: modifyLast (fun m => m ++ s) (g2 :: gs2)) := by
            rw [ih, hr, modifyLast_cons₂]
          cases hml : modifyLast (fun m => m ++ s) (g2 :: gs2) with
          | nil => exact absurd hml (modifyLast_ne_nil _ (by simp))
          | cons m ms =>
            rw [hml] at hts
            rw [List.cons_append, splitNl_cons_ne h _ hts,
              splitNl_cons_ne h _ hr, modifyLast_cons₂, hml]

/-! ## Scanner characterisations: the multiline regex tests seen
through the line structure -/

theorem dropWhile_append_nil {p : Char → Bool} {a : List Char}
    (h : a.dropWhile p = []) (b : List Char) :
    (a ++ b).dropWhile p = b.dropWhile p := by
  rw [List.dropWhile_append, h]
  simp

theorem dropWhile_append_cons {p : Char → Bool} {a d r} (h : a.dropWhile p = d :: r)
    (b : List Char) : (a ++ b).dropWhile p = d :: (r ++ b) := by
  rw [List.dropWhile_append, h]
  simp

theorem wsThenDigit_of_cons {l : List Char} {d r} (h : l.dropWhile isWsChar = d :: r) :
    wsThenDigit l = isDigitChar d := by
  unfold wsThenDigit
  rw [h]

theorem wsThenDigit_of_nil {l : List Char} (h : l.dropWhile isWsChar = []) :
    wsThenDigit l = false := by
  unfold wsThenDigit
  rw [h]

theorem wsdL_nil (t : List Char) : wsdL t [] = wsThenDigit t := rfl

theorem wsdL_of_digit {t : List Char} {d r} (h : t.dropWhile isWsChar = d :: r)
    (Ls : List (List Char)) : wsdL t Ls = isDigitChar d := by
  cases Ls with
  | nil => rw [wsdL_nil, wsThenDigit_of_cons h]
  | cons m Ms =>
    show (match t.dropWhile isWsChar with
      | d :: _ => isDigitChar d
      | [] => wsdL m Ms) = isDigitChar d
    rw [h]

theorem wsdL_of_ws_nil {t : List Char} (h : t.dropWhile isWsChar = []) :
    wsdL t [] = false := by
  rw [wsdL_nil, wsThenDigit_of_nil h]

theorem wsdL_of_ws_cons {t : List Char} (h : t.dropWhile isWsChar = [])
    (m : List Char) (Ms : List (List Char)) : wsdL t (m :: Ms) = wsdL m Ms := by
  show (match t.dropWhile isWsChar with
    | d :: _ => isDigitChar d
    | [] => wsdL m Ms) = wsdL m Ms
  rw [h]

theorem wsdL_eq_flat (t : List Char) (Ls : List (List Char)) :
    wsdL t Ls = wsThenDigit (joinNl (t :: Ls)) := by
  induction Ls generalizing t with
  | nil =>
    rw [joinNl_single]
    cases h : t.dropWhile isWsChar with
    | nil => rw [wsdL_of_ws_nil h, wsThenDigit_of_nil h]
    | cons d r => rw [wsdL_of_digit h, wsThenDigit_of_cons h]
  | cons m Ms ih =>
    rw [joinNl_cons₂]
    cases h : t.dropWhile isWsChar with
    | cons d r =>
      rw [wsdL_of_digit h, wsThenDigit_of_cons (dropWhile_append_cons h _)]
    | nil =>
      rw [wsdL_of_ws_cons h, ih]
      have e1 : (t ++ '\n' :: joinNl (m :: Ms)).dropWhile isWsChar
          = (joinNl (m :: Ms)).dropWhile isWsChar := by
        rw [dropWhile_append_nil h, List.dropWhile_cons]
        simp [isWsChar]
      unfold wsThenDigit
      rw [e1]

theorem scanLineStarts_cons (p : List Char → Bool) (c : Char) (l : List Char) :
    scanLineStarts p (c :: l) = ((c = '\n' && p l) || scanLineStarts p l) := rfl

theorem scanLineStarts_no_nl {g : List Char} (h : '\n' ∉ g) (p : List Char → Bool) :
    scanLineStarts p g = false := by
  induction g with
  | nil => rfl
  | cons c t ih =>
    have hc : c ≠ '\n' := fun hc => h (by simp [hc])
    have ht : '\n' ∉ t := fun hm => h (by simp [hm])
    rw [scanLineStarts_cons, ih ht]
    simp [hc]

theorem scanLineStarts_append_sep {g : List Char} (h : '\n' ∉ g) (p : List Char → Bool)
    (v : List Char) :
    scanLineStarts p (g ++ '\n' :: v) = (p v || scanLineStarts p v) := by
  induction g with
  | nil => simp [scanLineStarts_cons]
  | cons c t ih =>
    have hc : c ≠ '\n' := fun hc => h (by simp [hc])
    have ht : '\n' ∉ t := fun hm => h (by simp [hm])
    rw [List.cons_append, scanLineStarts_cons, ih ht]
    simp [hc]

theorem testMulti_joinNl {L : List (List Char)} (hL : L ≠ [])
    (hnl : ∀ m ∈ L, '\n' ∉ m) (p : List Char → Bool) :
    testMulti p (joinNl L) = linesTest p L := by
  induction L with
  | nil => exact absurd rfl hL
  | cons g gs ih =>
    cases gs with
    | nil =>
      show (p (joinNl [g]) || scanLineStarts p (joinNl [g])) = (p (joinNl [g]) || false)
      rw [joinNl_single, scanLineStarts_no_nl (hnl g (by simp))]
    | cons g2 gs2 =>
      show (p (joinNl (g :: g2 :: gs2)) || scanLineStarts p (joinNl (g :: g2 :: gs2)))
          = (p (joinNl (g :: g2 :: gs2)) || linesTest p (g2 :: gs2))
      rw [joinNl_cons₂, scanLineStarts_append_sep (hnl g (by simp)),
        ← ih (by simp) (fun m hm => hnl m (List.mem_cons_of_mem _ hm))]
      rfl

theorem matchKAt_joinNl_cons (g : List Char) (gs : List (List Char)) :
    matchKAt (joinNl (g :: gs)) = matchKAt g := by
  cases gs with
  | nil => rw [joinNl_single]
  | cons g2 gs2 =>
    rw [joinNl_cons₂]
    match g with
    | [] =>
      rw [List.nil_append]
      cases joinNl (g2 :: gs2) <;> simp [matchKAt]
    | [c1] => simp [matchKAt]
    | c1 :: c2 :: t => simp [matchKAt]

theorem matchXAt_joinNl_cons (g : List Char) (gs : List (List Char)) :
    matchXAt (joinNl (g :: gs)) = headXMatch g gs := by
  cases gs with
  | nil =>
    rw [joinNl_single]
    match g with
    | [] => simp [matchXAt, headXMatch]
    | [c1] => simp [matchXAt, headXMatch]
    | c1 :: c2 :: t =>
      show (decide (c1 = 'X') && decide (c2 = ':') && wsThenDigit t)
          = (decide (c1 = 'X') && decide (c2 = ':') && wsdL t [])
      rw [wsdL_eq_flat, joinNl_single]
  | cons g2 gs2 =>
    rw [joinNl_cons₂]
    match g with
    | [] =>
      rw [List.nil_append]
      cases joinNl (g2 :: gs2) <;> simp [matchXAt, headXMatch]
    | [c1] => simp [matchXAt, headXMatch]
    | c1 :: c2 :: t =>
      show (decide (c1 = 'X') && decide (c2 = ':') && wsThenDigit (t ++ '\n' :: joinNl (g2 :: gs2)))
          = (decide (c1 = 'X') && decide (c2 = ':') && wsdL t (g2 :: gs2))
      rw [wsdL_eq_flat, joinNl_cons₂]

theorem linesTest_matchKAt (L : List (List Char)) :
    linesTest matchKAt L = L.any matchKAt := by
  induction L with
  | nil => rfl
  | cons g gs ih =>
    show (matchKAt (joinNl (g :: gs)) || linesTest matchKAt gs) = (matchKAt g || gs.any matchKAt)
    rw [matchKAt_joinNl_cons, ih]

theorem linesTest_matchXAt (L : List (List Char)) :
    linesTest matchXAt L = xTestL L := by
  induction L with
  | nil => rfl
  | cons g gs ih =>
    show (matchXAt (joinNl (g :: gs)) || linesTest matchXAt gs) = (headXMatch g gs || xTestL gs)
    rw [matchXAt_joinNl_cons, ih]

theorem kTest_joinNl {L : List (List Char)} (hL : L ≠ []) (hnl : ∀ m ∈ L, '\n' ∉ m) :
    kTest (joinNl L) = L.any matchKAt := by
  unfold kTest
  rw [testMulti_joinNl hL hnl, linesTest_matchKAt]

theorem xTest_joinNl {L : List (List Char)} (hL : L ≠ []) (hnl : ∀ m ∈ L, '\n' ∉ m) :
    xTest (joinNl L) = xTestL L := by
  unfold xTest
  rw [testMulti_joinNl hL hnl, linesTest_matchXAt]

/-! ## Character-class facts -/

theorem isMusicChar_not_ws {c : Char} (h : isMusicChar c = true) : isWsChar c = false := by
  simp only [isMusicChar, decide_eq_true_eq] at h
  simp only [isWsChar, decide_eq_false_iff_not]
  rcases h with ⟨h1, h2⟩ | ⟨h1, h2⟩ | rfl | rfl | rfl | rfl | rfl
  · rintro (rfl | rfl | rfl | rfl | rfl | rfl) <;> exact absurd h1 (by decide)
  · rintro (rfl | rfl | rfl | rfl | rfl | rfl) <;> exact absurd h1 (by decide)
  all_goals decide

theorem isMusicChar_not_digit {c : Char} (h : isMusicChar c = true) : isDigitChar c = false := by
  simp only [isMusicChar, decide_eq_true_eq] at h
  simp only [isDigitChar, decide_eq_false_iff_not]
  rcases h with ⟨h1, h2⟩ | ⟨h1, h2⟩ | rfl | rfl | rfl | rfl | rfl
  · rintro ⟨hd1, hd2⟩
    exact absurd (le_trans h1 hd2) (by decide)
  · rintro ⟨hd1, hd2⟩
    exact absurd (le_trans h1 hd2) (by decide)
  all_goals decide

/-! ## `fixLine` facts -/

theorem bracketFixLine_fst (i : ℕ) (line : List Char) :
    (bracketFixLine i line).1 = fixLine line := by
  unfold bracketFixLine fixLine
  split
  · rfl
  · dsimp only
    split <;> rfl

theorem fixLine_shape (m : List Char) : ∃ k, fixLine m = m ++ List.replicate k ']' := by
  unfold fixLine
  split
  · exact ⟨0, by simp⟩
  · dsimp only
    split
    · exact ⟨_, rfl⟩
    · exact ⟨0, by simp⟩

theorem fixLine_of_balanced {m : List Char} (h : ¬ m.count ']' < m.count '[') :
    fixLine m = m := by
  unfold fixLine
  split
  · rfl
  · dsimp only
    rw [if_neg h]

theorem fixLine_all_ws {m : List Char} (h : ∀ c ∈ m, isWsChar c = true) : fixLine m = m := by
  apply fixLine_of_balanced
  have h0 : m.count '[' = 0 := by
    apply List.count_eq_zero.mpr
    intro hmem
    have := h '[' hmem
    simp [isWsChar] at this
  omega

/-! ## `wsdL` preservation under the repair transformations -/

theorem wsdL_map_fixLine {t : List Char} {S : List (List Char)} (h : wsdL t S = true) :
    wsdL t (S.map fixLine) = true := by
  induction S generalizing t with
  | nil => simpa using h
  | cons m Ms ih =>
    rw [List.map_cons]
    cases hd : t.dropWhile isWsChar with
    | cons d r =>
      rw [wsdL_of_digit hd] at h
      rw [wsdL_of_digit hd]
      exact h
    | nil =>
      rw [wsdL_of_ws_cons hd m Ms] at h
      rw [wsdL_of_ws_cons hd (fixLine m) (Ms.map fixLine)]
      cases hm : m.dropWhile isWsChar with
      | cons d r =>
        rw [wsdL_of_digit hm] at h
        obtain ⟨k, hk⟩ := fixLine_shape m
        rw [hk, wsdL_of_digit (dropWhile_append_cons hm _)]
        exact h
      | nil =>
        have hmws : ∀ c ∈ m, isWsChar c = true := List.dropWhile_eq_nil_iff.mp hm
        rw [fixLine_all_ws hmws]
        exact ih h

theorem wsdL_modifyLast {t : List Char} {S : List (List Char)} (s : List Char)
    (h : wsdL t S = true) :
    wsdL t (modifyLast (fun m => m ++ s) S) = true := by
  induction S generalizing t with
  | nil => simpa using h
  | cons m Ms ih =>
    cases hd : t.dropWhile isWsChar with
    | cons d r =>
      rw [wsdL_of_digit hd] at h
      cases Ms with
      | nil =>
        rw [modifyLast_single, wsdL_of_digit hd]
        exact h
      | cons m2 Ms2 =>
        rw [modifyLast_cons₂, wsdL_of_digit hd]
        exact h
    | nil =>
      rw [wsdL_of_ws_cons hd m Ms] at h
      cases Ms with
      | nil =>
        rw [modifyLast_single]
        rw [wsdL_nil] at h
        cases hm : m.dropWhile isWsChar with
        | nil =>
          rw [wsThenDigit_of_nil hm] at h
          cases h
        | cons d r =>
          rw [wsThenDigit_of_cons hm] at h
          rw [wsdL_of_ws_cons hd, wsdL_nil, wsThenDigit_of_cons (dropWhile_append_cons hm s)]
          exact h
      | cons m2 Ms2 =>
        rw [modifyLast_cons₂, wsdL_of_ws_cons hd]
        exact ih h

theorem wsdL_insert_before_music {t b : List Char} {A B : List (List Char)}
    (K : List Char) (h : wsdL t (A ++ b :: B) = true) (hb : isMusicLine b = true) :
    wsdL t (A ++ K :: b :: B) = true := by
  induction A generalizing t with
  | nil =>
    rw [List.nil_append] at h ⊢
    cases hd : t.dropWhile isWsChar with
    | cons d r =>
      rw [wsdL_of_digit hd] at h
      rw [wsdL_of_digit hd]
      exact h
    | nil =>
      rw [wsdL_of_ws_cons hd b B] at h
      exfalso
      obtain ⟨c, bt, rfl, hc⟩ : ∃ c bt, b = c :: bt ∧ isMusicChar c = true := by
        cases b with
        | nil => simp [isMusicLine] at hb
        | cons c bt =>
          refine ⟨c, bt, rfl, ?_⟩
          have hb' := hb
          simp only [isMusicLine, Bool.and_eq_true] at hb'
          exact hb'.1
      have hcw : isWsChar c = false := isMusicChar_not_ws hc
      have hdw : (c :: bt).dropWhile isWsChar = c :: bt := by
        rw [List.dropWhile_cons, hcw]
        simp
      cases B with
      | nil =>
        rw [wsdL_nil, wsThenDigit_of_cons hdw, isMusicChar_not_digit hc] at h
        cases h
      | cons b2 B2 =>
        rw [wsdL_of_digit hdw, isMusicChar_not_digit hc] at h
        cases h
  | cons a A' ih =>
    rw [List.cons_append] at h ⊢
    cases hd : t.dropWhile isWsChar with
    | cons d r =>
      rw [wsdL_of_digit hd] at h
      rw [wsdL_of_digit hd]
      exact h
    | nil =>
      rw [wsdL_of_ws_cons hd] at h
      rw [wsdL_of_ws_cons hd]
      exact ih h

/-! ## `xTestL` introduction and elimination -/

theorem xTestL_intro {P S : List (List Char)} {t : List Char} (hw : wsdL t S = true) :
    xTestL (P ++ (('X' :: ':' :: t) :: S)) = true := by
  induction P with
  | nil =>
    show (headXMatch ('X' :: ':' :: t) S || xTestL S) = true
    simp [headXMatch, hw]
  | cons p P' ih =>
    show (headXMatch p (P' ++ ('X' :: ':' :: t) :: S) || xTestL (P' ++ ('X' :: ':' :: t) :: S))
        = true
    rw [ih]
    simp

theorem xTestL_elim {L : List (List Char)} (h : xTestL L = true) :
    ∃ P t S, L = P ++ (('X' :: ':' :: t) :: S) ∧ wsdL t S = true := by
  induction L with
  | nil => cases h
  | cons g gs ih =>
    have h' : headXMatch g gs = true ∨ xTestL gs = true := by
      have : (headXMatch g gs || xTestL gs) = true := h
      simpa [Bool.or_eq_true] using this
    rcases h' with h1 | h2
    · match g, h1 with
      | [], h1 => exact absurd h1 (by simp [headXMatch])
      | [c1], h1 => exact absurd h1 (by simp [headXMatch])
      | c1 :: c2 :: t, h1 =>
        simp only [headXMatch, Bool.and_eq_true, decide_eq_true_eq] at h1
        obtain ⟨⟨rfl, rfl⟩, hw⟩ := h1
        exact ⟨[], t, gs, rfl, hw⟩
    · obtain ⟨P, t, S, hEq, hw⟩ := ih h2
      exact ⟨g :: P, t, S, by rw [hEq, List.cons_append], hw⟩

/-! ## Line predicates are stable under appending `]`/`}` characters -/

theorem line_preds_append {m s : List Char} (hs : ∀ c ∈ s, c = ']' ∨ c = '}') :
    isHeaderLine (m ++ s) = isHeaderLine m
    ∧ matchKAt (m ++ s) = matchKAt m
    ∧ isMusicLine (m ++ s) = isMusicLine m := by
  match m with
  | c1 :: c2 :: t => exact ⟨rfl, rfl, rfl⟩
  | [c1] =>
    cases s with
    | nil => simp
    | cons c2 s' =>
      have hc2 := hs c2 (by simp)
      refine ⟨?_, ?_, ?_⟩
      · rcases hc2 with rfl | rfl <;> simp [isHeaderLine]
      · rcases hc2 with rfl | rfl <;> simp [matchKAt]
      · rcases hc2 with rfl | rfl <;> simp [isMusicLine, isHeaderLine]
  | [] =>
    cases s with
    | nil => simp
    | cons c s' =>
      have hc := hs c (by simp)
      cases s' with
      | nil =>
        rcases hc with rfl | rfl <;>
          refine ⟨by decide, by decide, by decide⟩
      | cons c2 s'' =>
        have hc2 := hs c2 (by simp)
        rcases hc with rfl | rfl <;> rcases hc2 with rfl | rfl <;>
          exact ⟨by simp [isHeaderLine], by simp [matchKAt],
            by simp [isMusicLine, isMusicChar]⟩

theorem isMusicLine_fixLine (m : List Char) : isMusicLine (fixLine m) = isMusicLine m := by
  obtain ⟨k, hk⟩ := fixLine_shape m
  rw [hk]
  exact (line_preds_append (fun c hc => Or.inl (List.eq_of_mem_replicate hc))).2.2

theorem matchKAt_fixLine (m : List Char) : matchKAt (fixLine m) = matchKAt m := by
  obtain ⟨k, hk⟩ := fixLine_shape m
  rw [hk]
  exact (line_preds_append (fun c hc => Or.inl (List.eq_of_mem_replicate hc))).2.1

theorem isHeaderLine_fixLine (m : List Char) : isHeaderLine (fixLine m) = isHeaderLine m := by
  obtain ⟨k, hk⟩ := fixLine_shape m
  rw [hk]
  exact (line_preds_append (fun c hc => Or.inl (List.eq_of_mem_replicate hc))).1

/-! ## `findMusicIdx` facts -/

theorem findMusicIdx_cons (g : List Char) (gs : List (List Char)) :
    findMusicIdx (g :: gs)
      = if isMusicLine g then some 0 else (findMusicIdx gs).map (· + 1) := rfl

theorem findMusicIdx_eq_some {L : List (List Char)} {i : ℕ} (h : findMusicIdx L = some i) :
    ∃ A b B, L = A ++ b :: B ∧ A.length = i ∧ (∀ a ∈ A, isMusicLine a = false)
      ∧ isMusicLine b = true := by
  induction L generalizing i with
  | nil => simp [findMusicIdx] at h
  | cons g gs ih =>
    rw [findMusicIdx_cons] at h
    by_cases hg : isMusicLine g = true
    · rw [if_pos hg] at h
      obtain rfl : i = 0 := by
        cases h
        rfl
      exact ⟨[], g, gs, rfl, rfl, by simp, hg⟩
    · rw [if_neg hg] at h
      obtain ⟨j, hj, rfl⟩ := Option.map_eq_some'.mp h
      obtain ⟨A, b, B, rfl, rfl, hA, hb⟩ := ih hj
      refine ⟨g :: A, b, B, rfl, by simp, ?_, hb⟩
      intro a ha
      rcases List.mem_cons.mp ha with rfl | ha2
      · exact Bool.not_eq_true _ |>.mp hg
      · exact hA a ha2

theorem findMusicIdx_map_fixLine (L : List (List Char)) :
    findMusicIdx (L.map fixLine) = findMusicIdx L := by
  induction L with
  | nil => rfl
  | cons g gs ih =>
    rw [List.map_cons, findMusicIdx_cons, findMusicIdx_cons, isMusicLine_fixLine, ih]

theorem findMusicIdx_modifyLast {s : List Char} (hs : ∀ c ∈ s, c = ']' ∨ c = '}')
    (L : List (List Char)) :
    findMusicIdx (modifyLast (fun m => m ++ s) L) = findMusicIdx L := by
  induction L with
  | nil => rfl
  | cons g gs ih =>
    cases gs with
    | nil =>
      rw [modifyLast_single, findMusicIdx_cons, findMusicIdx_cons,
        (line_preds_append hs).2.2]
    | cons g2 gs2 =>
      rw [modifyLast_cons₂, findMusicIdx_cons, findMusicIdx_cons, ih]

theorem any_matchKAt_map_fixLine (L : List (List Char)) :
    (L.map fixLine).any matchKAt = L.any matchKAt := by
  induction L with
  | nil => rfl
  | cons g gs ih =>
    rw [List.map_cons, List.any_cons, List.any_cons, matchKAt_fixLine, ih]

theorem any_matchKAt_modifyLast {s : List Char} (hs : ∀ c ∈ s, c = ']' ∨ c = '}')
    (L : List (List Char)) :
    (modifyLast (fun m => m ++ s) L).any matchKAt = L.any matchKAt := by
  induction L with
  | nil => rfl
  | cons g gs ih =>
    cases gs with
    | nil =>
      rw [modifyLast_single, List.any_cons, List.any_cons, (line_preds_append hs).2.1]
    | cons g2 gs2 =>
      rw [modifyLast_cons₂, List.any_cons, List.any_cons, ih]

/-! ## Trim facts -/

theorem head?_dropWhile_ws {l : List Char} {c : Char}
    (h : (l.dropWhile isWsChar).head? = some c) : isWsChar c = false := by
  have h2 := List.head?_dropWhile_not isWsChar l
  rw [h] at h2
  exact h2

theorem getLast?_cons_of_ne_nil {α : Type _} {c : α} {l : List α} (h : l ≠ []) :
    (c :: l).getLast? = l.getLast? := by
  cases l with
  | nil => exact absurd rfl h
  | cons x t => exact List.getLast?_cons_cons

theorem getLast?_dropWhile {p : Char → Bool} {w : List Char} (h : w.dropWhile p ≠ []) :
    (w.dropWhile p).getLast? = w.getLast? := by
  induction w with
  | nil => simp at h
  | cons c t ih =>
    rw [List.dropWhile_cons]
    by_cases hp : p c = true
    · rw [List.dropWhile_cons, hp] at h
      simp only [if_true] at h ⊢
      rw [hp]
      simp only [if_true]
      have ht : t ≠ [] := by
        intro hteq
        rw [hteq] at h
        simp at h
      rw [ih h, getLast?_cons_of_ne_nil ht]
    · have hp' : p c = false := Bool.not_eq_true _ |>.mp hp
      rw [hp']
      simp

theorem exists_dropWhile_decomp (p : Char → Bool) (l : List Char) :
    ∃ s, l = s ++ l.dropWhile p := by
  induction l with
  | nil => exact ⟨[], rfl⟩
  | cons c t ih =>
    rw [List.dropWhile_cons]
    by_cases hp : p c = true
    · obtain ⟨s, hs⟩ := ih
      rw [hp]
      exact ⟨c :: s, by simpa using hs⟩
    · have hp' : p c = false := Bool.not_eq_true _ |>.mp hp
      rw [hp']
      exact ⟨[], by simp⟩

theorem dropWhile_eq_self_of_head {l : List Char}
    (h : ∀ c, l.head? = some c → isWsChar c = false) : l.dropWhile isWsChar = l := by
  cases l with
  | nil => rfl
  | cons c t =>
    rw [List.dropWhile_cons, h c rfl]
    simp

theorem trimRight_eq_self_of_last {l : List Char}
    (h : ∀ c, l.getLast? = some c → isWsChar c = false) : trimRight l = l := by
  unfold trimRight
  rw [dropWhile_eq_self_of_head, List.reverse_reverse]
  intro c hc
  rw [List.head?_reverse] at hc
  exact h c hc

theorem jsTrim_eq_self {l : List Char}
    (hh : ∀ c, l.head? = some c → isWsChar c = false)
    (hl : ∀ c, l.getLast? = some c → isWsChar c = false) : jsTrim l = l := by
  unfold jsTrim
  rw [dropWhile_eq_self_of_head hh, trimRight_eq_self_of_last hl]

theorem jsTrim_head_not_ws {l : List Char} {c : Char}
    (h : (jsTrim l).head? = some c) : isWsChar c = false := by
  unfold jsTrim trimRight at h
  have hne : (l.dropWhile isWsChar).reverse.dropWhile isWsChar ≠ [] := by
    intro he
    rw [he] at h
    simp at h
  rw [List.head?_reverse, getLast?_dropWhile hne, List.getLast?_reverse] at h
  exact head?_dropWhile_ws h

theorem jsTrim_last_not_ws {l : List Char} {c : Char}
    (h : (jsTrim l).getLast? = some c) : isWsChar c = false := by
  unfold jsTrim trimRight at h
  rw [List.getLast?_reverse] at h
  exact head?_dropWhile_ws h

/-! ## `hasTriple` through trims -/

theorem headTicks_le_append (t b : List Char) : headTicks t ≤ headTicks (t ++ b) := by
  induction t with
  | nil => simp [headTicks]
  | cons c u ih =>
    rw [List.cons_append, headTicks_cons, headTicks_cons]
    by_cases hc : c = '\x60' <;> simp [hc] <;> omega

theorem hasTriple_of_append_left {a b : List Char} (h : hasTriple (a ++ b) = false) :
    hasTriple a = false := by
  induction a with
  | nil => rfl
  | cons c t ih =>
    rw [List.cons_append, hasTriple_cons] at h
    rcases Bool.or_eq_false_iff.mp h with ⟨h1, h2⟩
    rw [hasTriple_cons, ih h2]
    rcases Bool.and_eq_false_iff.mp h1 with h3 | h3
    · simp [h3]
    · have : ¬ 2 ≤ headTicks t := by
        intro hle
        have := le_trans hle (headTicks_le_append t b)
        simp [this] at h3
      simp [this]

theorem hasTriple_of_append_right {a b : List Char} (h : hasTriple (a ++ b) = false) :
    hasTriple b = false := by
  induction a with
  | nil => exact h
  | cons c t ih =>
    rw [List.cons_append, hasTriple_cons] at h
    exact ih (Bool.or_eq_false_iff.mp h).2

theorem hasTriple_dropWhile {p : Char → Bool} {w : List Char} (h : hasTriple w = false) :
    hasTriple (w.dropWhile p) = false := by
  obtain ⟨s, hs⟩ := exists_dropWhile_decomp p w
  rw [hs] at h
  exact hasTriple_of_append_right h

theorem hasTriple_trimRight {w : List Char} (h : hasTriple w = false) :
    hasTriple (trimRight w) = false := by
  unfold trimRight
  obtain ⟨s, hs⟩ := exists_dropWhile_decomp isWsChar w.reverse
  have hrev : w = (w.reverse.dropWhile isWsChar).reverse ++ s.reverse := by
    have h2 : (s ++ w.reverse.dropWhile isWsChar).reverse
        = (w.reverse.dropWhile isWsChar).reverse ++ s.reverse := by
      simp
    rw [← h2, ← hs, List.reverse_reverse]
  rw [hrev] at h
  exact hasTriple_of_append_left h

theorem hasTriple_jsTrim {w : List Char} (h : hasTriple w = false) :
    hasTriple (jsTrim w) = false :=
  hasTriple_trimRight (hasTriple_dropWhile h)

/-! ## Heads, lasts, and membership through `splitNl`/`joinNl` -/

theorem joinNl_head? {g : List Char} (hg : g ≠ []) (gs : List (List Char)) :
    (joinNl (g :: gs)).head? = g.head? := by
  cases gs with
  | nil => rw [joinNl_single]
  | cons g2 gs2 =>
    rw [joinNl_cons₂, List.head?_append]
    cases g with
    | nil => exact absurd rfl hg
    | cons c t => simp

theorem joinNl_ne_nil_of_head {g : List Char} (hg : g ≠ []) (gs : List (List Char)) :
    joinNl (g :: gs) ≠ [] := by
  intro h
  have := joinNl_head? hg gs
  rw [h] at this
  cases g with
  | nil => exact absurd rfl hg
  | cons c t => simp at this

theorem joinNl_getLast? {L : List (List Char)} {g : List Char}
    (hlast : L.getLast? = some g) (hg : g ≠ []) :
    (joinNl L).getLast? = g.getLast? := by
  induction L with
  | nil => simp at hlast
  | cons g1 gs ih =>
    cases gs with
    | nil =>
      simp only [List.getLast?_singleton] at hlast
      cases hlast
      rw [joinNl_single]
    | cons g2 gs2 =>
      rw [List.getLast?_cons_cons] at hlast
      have hx := ih hlast
      have hxne : joinNl (g2 :: gs2) ≠ [] := by
        intro he
        rw [he] at hx
        simp only [List.getLast?_nil] at hx
        cases g with
        | nil => exact absurd rfl hg
        | cons c t =>
          rw [eq_comm] at hx
          simp at hx
      rw [joinNl_cons₂, List.getLast?_append, getLast?_cons_of_ne_nil hxne, hx]
      obtain ⟨a, ha⟩ : ∃ a, g.getLast? = some a :=
        Option.isSome_iff_exists.mp (List.getLast?_isSome.mpr hg)
      rw [ha]
      rfl

theorem splitNl_head_of_head {z : List Char} {c : Char} (hz : z.head? = some c)
    (hc : c ≠ '\n') : ∃ g gs, splitNl z = (c :: g) :: gs := by
  cases z with
  | nil => simp at hz
  | cons c0 t =>
    obtain rfl : c0 = c := by
      simpa using hz
    cases hr : splitNl t with
    | nil => exact absurd hr (splitNl_ne_nil t)
    | cons g gs => exact ⟨g, gs, splitNl_cons_ne hc t hr⟩

theorem splitNl_getLast_of_last {z : List Char} {c : Char} (hz : z.getLast? = some c)
    (hc : c ≠ '\n') :
    ∃ g, (splitNl z).getLast? = some g ∧ g.getLast? = some c := by
  induction z with
  | nil => simp at hz
  | cons x t ih =>
    cases t with
    | nil =>
      simp only [List.getLast?_singleton] at hz
      cases hz
      by_cases hx : c = '\n'
      · exact absurd hx hc
      · cases hr : splitNl ([] : List Char) with
        | nil => exact absurd hr (splitNl_ne_nil [])
        | cons g gs =>
          have hr' : splitNl ([] : List Char) = [[]] := rfl
          rw [hr'] at hr
          cases hr
          rw [splitNl_cons_ne hx [] hr']
          exact ⟨[c], rfl, rfl⟩
    | cons y t2 =>
      rw [List.getLast?_cons_cons] at hz
      obtain ⟨g, hg1, hg2⟩ := ih hz
      by_cases hx : x = '\n'
      · subst hx
        rw [splitNl_nl]
        refine ⟨g, ?_, hg2⟩
        rw [getLast?_cons_of_ne_nil (splitNl_ne_nil (y :: t2))]
        exact hg1
      · cases hr : splitNl (y :: t2) with
        | nil => exact absurd hr (splitNl_ne_nil _)
        | cons g1 gs =>
          rw [splitNl_cons_ne hx _ hr]
          cases gs with
          | nil =>
            rw [hr] at hg1
            simp only [List.getLast?_singleton] at hg1
            cases hg1
            refine ⟨x :: g, rfl, ?_⟩
            have hgne : g ≠ [] := by
              intro he
              rw [he] at hg2
              simp at hg2
            rw [getLast?_cons_of_ne_nil hgne]
            exact hg2
          | cons g2 gs2 =>
            rw [hr, List.getLast?_cons_cons] at hg1
            refine ⟨g, ?_, hg2⟩
            rw [List.getLast?_cons_cons]
            exact hg1

theorem hasTriple_joinNl {L : List (List Char)} (h : ∀ m ∈ L, hasTriple m = false) :
    hasTriple (joinNl L) = false := by
  induction L with
  | nil => rfl
  | cons g gs ih =>
    cases gs with
    | nil =>
      rw [joinNl_single]
      exact h g (by simp)
    | cons g2 gs2 =>
      rw [joinNl_cons₂, hasTriple_append_sep, h g (by simp),
        ih (fun m hm => h m (List.mem_cons_of_mem _ hm))]
      rfl

theorem hasTriple_mem_joinNl {L : List (List Char)} {m : List Char}
    (h : hasTriple (joinNl L) = false) (hm : m ∈ L) : hasTriple m = false := by
  induction L with
  | nil => simp at hm
  | cons g gs ih =>
    cases gs with
    | nil =>
      rw [joinNl_single] at h
      rcases List.mem_cons.mp hm with rfl | hm2
      · exact h
      · simp at hm2
    | cons g2 gs2 =>
      rw [joinNl_cons₂, hasTriple_append_sep] at h
      rcases Bool.or_eq_false_iff.mp h with ⟨h1, h2⟩
      rcases List.mem_cons.mp hm with rfl | hm2
      · exact h1
      · exact ih h2 hm2

theorem modifyLast_append {u v : List (List Char)} (hv : v ≠ [])
    (f : List Char → List Char) :
    modifyLast f (u ++ v) = u ++ modifyLast f v := by
  induction u with
  | nil => simp
  | cons g gs ih =>
    have hgv : gs ++ v ≠ [] := List.append_ne_nil_of_right_ne_nil gs hv
    cases hgv2 : gs ++ v with
    | nil => exact absurd hgv2 hgv
    | cons m ms =>
      rw [List.cons_append, hgv2, modifyLast_cons₂, ← hgv2, ih, List.cons_append]

theorem mem_modifyLast {L : List (List Char)} {m : List Char} (f : List Char → List Char)
    (hm : m ∈ modifyLast f L) : m ∈ L ∨ ∃ m₀ ∈ L, m = f m₀ := by
  induction L with
  | nil => simp [modifyLast] at hm
  | cons g gs ih =>
    cases gs with
    | nil =>
      rw [modifyLast_single] at hm
      rcases List.mem_cons.mp hm with rfl | hm2
      · exact Or.inr ⟨g, by simp, rfl⟩
      · simp at hm2
    | cons g2 gs2 =>
      rw [modifyLast_cons₂] at hm
      rcases List.mem_cons.mp hm with rfl | hm2
      · exact Or.inl (by simp)
      · rcases ih hm2 with h1 | ⟨m₀, hm₀, rfl⟩
        · exact Or.inl (List.mem_cons_of_mem _ h1)
        · exact Or.inr ⟨m₀, List.mem_cons_of_mem _ hm₀, rfl⟩

theorem insertAt_length_append (A : List (List Char)) (a : List Char)
    (rest : List (List Char)) :
    insertAt A.length a (A ++ rest) = A ++ a :: rest := by
  induction A with
  | nil => rfl
  | cons g gs ih => simp [insertAt, ih]

theorem insertAt_append_left {i : ℕ} {P : List (List Char)} (h : i ≤ P.length)
    (a : List Char) (v : List (List Char)) :
    insertAt i a (P ++ v) = insertAt i a P ++ v := by
  induction P generalizing i with
  | nil =>
    have h0 : i = 0 := by simpa using h
    subst h0
    rfl
  | cons g gs ih =>
    cases i with
    | zero => rfl
    | succ j =>
      have hj : j ≤ gs.length := by simpa using h
      simp [insertAt, ih hj]

theorem bracketMapLines_cons (i : ℕ) (m : List Char) (Ms : List (List Char)) :
    bracketMapLines i (m :: Ms) = bracketFixLine i m :: bracketMapLines (i + 1) Ms := rfl

theorem bracketMapLines_map_fst (i : ℕ) (L : List (List Char)) :
    (bracketMapLines i L).map Prod.fst = L.map fixLine := by
  induction L generalizing i with
  | nil => rfl
  | cons m Ms ih =>
    rw [bracketMapLines_cons, List.map_cons, List.map_cons, bracketFixLine_fst, ih]

theorem fixLine_balanced (m : List Char) :
    isHeaderLine (fixLine m) = true ∨ ¬ (fixLine m).count ']' < (fixLine m).count '[' := by
  by_cases hh : isHeaderLine m = true
  · left
    rw [isHeaderLine_fixLine]
    exact hh
  · right
    unfold fixLine
    rw [if_neg hh]
    dsimp only
    by_cases hc : m.count ']' < m.count '['
    · rw [if_pos hc, List.count_append, List.count_append, List.count_replicate,
        List.count_replicate]
      simp
      omega
    · rw [if_neg hc]
      exact hc

theorem no_nl_fixLine {m : List Char} (h : '\n' ∉ m) : '\n' ∉ fixLine m := by
  obtain ⟨k, hk⟩ := fixLine_shape m
  rw [hk]
  intro hmem
  rcases List.mem_append.mp hmem with h1 | h2
  · exact h h1
  · have := List.eq_of_mem_replicate h2
    simp at this

theorem count_fixLine_of_ne {ch : Char} (h1 : ch ≠ ']') (m : List Char) :
    (fixLine m).count ch = m.count ch := by
  obtain ⟨k, hk⟩ := fixLine_shape m
  rw [hk, List.count_append, List.count_replicate]
  simp [Ne.symm h1]

/-! ## Repair stability: inputs on which `validateAndFixAbc` is the
identity with no fixes -/

theorem kStep_eq_insert {s : List Char} {i : ℕ} (hk : kTest s = false)
    (hf : findMusicIdx (splitNl s) = some i) (hi : 0 < i) :
    kStep s = (joinNl (insertAt i kHeaderLine (splitNl s)),
      ["Added missing K:C header (defaulted to C major)"]) := by
  unfold kStep
  rw [if_neg (by simp [hk]), hf]
  simp [hi]

theorem kStep_eq_skip {s : List Char} (hk : kTest s = false)
    (hf : findMusicIdx (splitNl s) = none ∨ findMusicIdx (splitNl s) = some 0) :
    kStep s = (s, []) := by
  unfold kStep
  rw [if_neg (by simp [hk])]
  rcases hf with hn | h0
  · rw [hn]
  · rw [h0]
    simp

theorem validateAndFixAbc_stable {y : List Char}
    (h1 : hasTriple y = false)
    (hh : ∀ c, y.head? = some c → isWsChar c = false)
    (hl : ∀ c, y.getLast? = some c → isWsChar c = false)
    (h3 : xTest y = true)
    (h4k : kTest y = true ∨ (kTest y = false ∧
        (findMusicIdx (splitNl y) = none ∨ findMusicIdx (splitNl y) = some 0)))
    (h5 : ∀ m ∈ splitNl y, isHeaderLine m = true ∨ ¬ m.count ']' < m.count '[')
    (h6 : ¬ y.count '}' < y.count '{') :
    validateAndFixAbc y = ⟨y, []⟩ := by
  have hf1 : jsTrim (stripTicks (stripFenceAbc y)) = y := by
    rw [stripFenceAbc_id h1, stripTicks_id h1, jsTrim_eq_self hh hl]
  have hx : xStep y = (y, []) := by
    unfold xStep
    rw [if_pos h3]
  have hk : kStep y = (y, []) := by
    rcases h4k with hkt | ⟨hkf, hfind⟩
    · unfold kStep
      rw [if_pos hkt]
    · exact kStep_eq_skip hkf hfind
  have hbrmap : ∀ (i : ℕ) (L : List (List Char)),
      (∀ m ∈ L, isHeaderLine m = true ∨ ¬ m.count ']' < m.count '[') →
      bracketMapLines i L = L.map (fun m => (m, ([] : List String))) := by
    intro i L
    induction L generalizing i with
    | nil => intro _; rfl
    | cons m Ms ih =>
      intro hmem
      rw [bracketMapLines_cons, List.map_cons]
      have hm : bracketFixLine i m = (m, []) := by
        rcases hmem m (by simp) with hhd | hb'
        · unfold bracketFixLine
          rw [if_pos hhd]
        · unfold bracketFixLine
          split
          · rfl
          · dsimp only
            rw [if_neg hb']
      rw [hm, ih (i + 1) (fun m' hm' => hmem m' (List.mem_cons_of_mem _ hm'))]
  have hfst : ((splitNl y).map (fun m => (m, ([] : List String)))).map Prod.fst
      = splitNl y := by
    have hcomp : (Prod.fst ∘ fun m : List Char => (m, ([] : List String))) = id := rfl
    rw [List.map_map, hcomp, List.map_id]
  have hsnd : (((splitNl y).map (fun m => (m, ([] : List String)))).map Prod.snd).flatten
      = ([] : List String) := by
    rw [List.map_map]
    rw [List.flatten_eq_nil_iff]
    intro l hl2
    rcases List.mem_map.1 hl2 with ⟨m, _, rfl⟩
    rfl
  have hbr : bracketStep y = (y, []) := by
    unfold bracketStep
    dsimp only
    rw [hbrmap 0 (splitNl y) h5, hfst, hsnd, joinNl_splitNl]
  have hbc : braceStep y = (y, []) := by
    unfold braceStep
    rw [if_neg h6]
  show (⟨(braceStep (bracketStep (kStep (xStep (jsTrim (stripTicks (stripFenceAbc y)))).1).1).1).1,
      (xStep (jsTrim (stripTicks (stripFenceAbc y)))).2
        ++ (kStep (xStep (jsTrim (stripTicks (stripFenceAbc y)))).1).2
        ++ (bracketStep (kStep (xStep (jsTrim (stripTicks (stripFenceAbc y)))).1).1).2
        ++ (braceStep (bracketStep (kStep (xStep (jsTrim (stripTicks (stripFenceAbc y)))).1).1).1).2⟩
      : FixResult) = ⟨y, []⟩
  rw [hf1, hx]
  dsimp only
  rw [hk]
  dsimp only
  rw [hbr]
  dsimp only
  rw [hbc]
  rfl

theorem fixLine_of_header {m : List Char} (h : isHeaderLine m = true) : fixLine m = m := by
  unfold fixLine
  rw [if_pos h]

theorem getLast?_replicate_succ (n : ℕ) (c : Char) :
    (List.replicate (n + 1) c).getLast? = some c := by
  rw [List.replicate_succ', List.getLast?_concat]

/-- Core stability of the bracket/brace stages: starting from any text
`f3` that survives the fence/trim and header stages unchanged, the
output of the bracket and brace repairs is a fixed point of the whole
repair. -/
theorem after_k_stable {f3 : List Char}
    (h3t : hasTriple f3 = false)
    (h3h : ∀ c, f3.head? = some c → isWsChar c = false)
    (h3l : ∀ c, f3.getLast? = some c → isWsChar c = false)
    (h3n : f3 ≠ [])
    (h3x : xTestL (splitNl f3) = true)
    (h3k : (splitNl f3).any matchKAt = true
      ∨ ((splitNl f3).any matchKAt = false
          ∧ (findMusicIdx (splitNl f3) = none ∨ findMusicIdx (splitNl f3) = some 0))) :
    validateAndFixAbc ((braceStep (bracketStep f3).1).1)
      = ⟨(braceStep (bracketStep f3).1).1, []⟩ := by
  have hL3nl : ∀ m ∈ splitNl f3, '\n' ∉ m := fun m hm => mem_splitNl_no_nl hm
  have hf4 : (bracketStep f3).1 = joinNl ((splitNl f3).map fixLine) := by
    unfold bracketStep
    dsimp only
    rw [bracketMapLines_map_fst]
  have hL4nl : ∀ m ∈ (splitNl f3).map fixLine, '\n' ∉ m := by
    intro m hm
    rcases List.mem_map.1 hm with ⟨m₀, hm₀, rfl⟩
    exact no_nl_fixLine (hL3nl m₀ hm₀)
  have hL4nn : (splitNl f3).map fixLine ≠ [] := by
    intro he
    exact splitNl_ne_nil f3 (List.map_eq_nil_iff.mp he)
  have hsplit4 : splitNl (joinNl ((splitNl f3).map fixLine)) = (splitNl f3).map fixLine :=
    splitNl_joinNl hL4nn hL4nl
  have h3t' : hasTriple (joinNl (splitNl f3)) = false := by
    rw [joinNl_splitNl]
    exact h3t
  -- first and last characters of f3
  obtain ⟨c0, hc0⟩ : ∃ c0, f3.head? = some c0 := by
    cases f3 with
    | nil => exact absurd rfl h3n
    | cons c t => exact ⟨c, rfl⟩
  have hc0w : isWsChar c0 = false := h3h c0 hc0
  have hc0nl : c0 ≠ '\n' := by
    intro he
    rw [he] at hc0w
    simp [isWsChar] at hc0w
  obtain ⟨g0, gs0, hsp⟩ := splitNl_head_of_head hc0 hc0nl
  obtain ⟨cl, hcl⟩ : ∃ cl, f3.getLast? = some cl := by
    have := List.getLast?_isSome.mpr h3n
    exact Option.isSome_iff_exists.mp this
  have hclw : isWsChar cl = false := h3l cl hcl
  have hclnl : cl ≠ '\n' := by
    intro he
    rw [he] at hclw
    simp [isWsChar] at hclw
  obtain ⟨gl, hgl1, hgl2⟩ := splitNl_getLast_of_last hcl hclnl
  have hglne : gl ≠ [] := by
    intro he
    rw [he] at hgl2
    simp at hgl2
  -- the main inner statement, for an arbitrary brace suffix
  have main : ∀ k : ℕ,
      ¬ (joinNl ((splitNl f3).map fixLine) ++ List.replicate k '}').count '}'
          < (joinNl ((splitNl f3).map fixLine) ++ List.replicate k '}').count '{' →
      validateAndFixAbc (joinNl ((splitNl f3).map fixLine) ++ List.replicate k '}')
        = ⟨joinNl ((splitNl f3).map fixLine) ++ List.replicate k '}', []⟩ := by
    intro k h6y
    have hrepchars : ∀ c ∈ List.replicate k '}', c = ']' ∨ c = '}' :=
      fun c hc => Or.inr (List.eq_of_mem_replicate hc)
    have hrepnl : '\n' ∉ List.replicate k '}' := by
      intro hc
      have := List.eq_of_mem_replicate hc
      simp at this
    have hrepne : ∀ c ∈ List.replicate k '}', c ≠ '\x60' := by
      intro c hc
      have := List.eq_of_mem_replicate hc
      subst this
      decide
    have hsplity : splitNl (joinNl ((splitNl f3).map fixLine) ++ List.replicate k '}')
        = modifyLast (fun m => m ++ List.replicate k '}') ((splitNl f3).map fixLine) := by
      rw [splitNl_append_no_nl hrepnl, hsplit4]
    have htri4 : hasTriple (joinNl ((splitNl f3).map fixLine)) = false := by
      apply hasTriple_joinNl
      intro m hm
      rcases List.mem_map.1 hm with ⟨m₀, hm₀, rfl⟩
      obtain ⟨k', hk'⟩ := fixLine_shape m₀
      rw [hk', hasTriple_append_all_ne (fun c hc => by
        have := List.eq_of_mem_replicate hc
        subst this
        decide)]
      exact hasTriple_mem_joinNl h3t' hm₀
    have h1y : hasTriple (joinNl ((splitNl f3).map fixLine) ++ List.replicate k '}') = false := by
      rw [hasTriple_append_all_ne hrepne]
      exact htri4
    -- head of the output
    have hL4h : ∃ t4 gs4, (splitNl f3).map fixLine = (c0 :: t4) :: gs4 := by
      rw [hsp, List.map_cons]
      obtain ⟨k', hk'⟩ := fixLine_shape (c0 :: g0)
      rw [hk']
      exact ⟨g0 ++ List.replicate k' ']', _, rfl⟩
    obtain ⟨t4, gs4, hL4h⟩ := hL4h
    have hf4head : (joinNl ((splitNl f3).map fixLine)).head? = some c0 := by
      rw [hL4h, joinNl_head? (by simp) gs4]
      rfl
    have hyh : ∀ c, (joinNl ((splitNl f3).map fixLine) ++ List.replicate k '}').head? = some c
        → isWsChar c = false := by
      intro c hcy
      rw [List.head?_append, hf4head] at hcy
      cases hcy
      exact hc0w
    -- last of the output
    have hf4last : ∃ ce, (joinNl ((splitNl f3).map fixLine)).getLast? = some ce
        ∧ isWsChar ce = false := by
      have hmap : ((splitNl f3).map fixLine).getLast? = some (fixLine gl) := by
        rw [List.getLast?_map, hgl1]
        rfl
      obtain ⟨k', hk'⟩ := fixLine_shape gl
      have hfgne : fixLine gl ≠ [] := by
        rw [hk']
        intro he
        rcases List.append_eq_nil.mp he with ⟨he1, -⟩
        exact hglne he1
      have hjl : (joinNl ((splitNl f3).map fixLine)).getLast? = (fixLine gl).getLast? :=
        joinNl_getLast? hmap hfgne
      cases hk'' : k' with
      | zero =>
        refine ⟨cl, ?_, hclw⟩
        rw [hjl, hk', hk'']
        simpa using hgl2
      | succ n =>
        refine ⟨']', ?_, by decide⟩
        rw [hjl, hk', hk'', List.getLast?_append, getLast?_replicate_succ]
        rfl
    obtain ⟨ce, hce1, hce2⟩ := hf4last
    have hly : ∀ c, (joinNl ((splitNl f3).map fixLine) ++ List.replicate k '}').getLast? = some c
        → isWsChar c = false := by
      intro c hcy
      rw [List.getLast?_append] at hcy
      cases hk0 : k with
      | zero =>
        rw [hk0] at hcy
        simp only [List.replicate_zero, List.getLast?_nil, Option.none_or] at hcy
        rw [hce1] at hcy
        cases hcy
        exact hce2
      | succ n =>
        rw [hk0, getLast?_replicate_succ] at hcy
        cases hcy
        decide
    -- X: header test survives
    obtain ⟨P, t, S, hPS, hw⟩ := xTestL_elim h3x
    have hheaderX : isHeaderLine ('X' :: ':' :: t) = true := rfl
    have hfixX : fixLine ('X' :: ':' :: t) = 'X' :: ':' :: t := fixLine_of_header hheaderX
    have hL4split : (splitNl f3).map fixLine
        = P.map fixLine ++ ('X' :: ':' :: t) :: S.map fixLine := by
      rw [hPS, List.map_append, List.map_cons, hfixX]
    have hwd4 : wsdL t (S.map fixLine) = true := wsdL_map_fixLine hw
    have hxl : xTestL (splitNl (joinNl ((splitNl f3).map fixLine) ++ List.replicate k '}'))
        = true := by
      rw [hsplity, hL4split]
      cases hS : S.map fixLine with
      | nil =>
        rw [hS] at hwd4
        rw [modifyLast_append (by simp) _, modifyLast_single]
        have he : ('X' :: ':' :: t) ++ List.replicate k '}'
            = 'X' :: ':' :: (t ++ List.replicate k '}') := rfl
        rw [he]
        apply xTestL_intro
        rw [wsdL_nil] at hwd4 ⊢
        cases hdt : t.dropWhile isWsChar with
        | nil =>
          rw [wsThenDigit_of_nil hdt] at hwd4
          cases hwd4
        | cons d r =>
          rw [wsThenDigit_of_cons hdt] at hwd4
          rw [wsThenDigit_of_cons (dropWhile_append_cons hdt _)]
          exact hwd4
      | cons m1 ms1 =>
        rw [hS] at hwd4
        rw [modifyLast_append (by simp) _, modifyLast_cons₂]
        apply xTestL_intro
        exact wsdL_modifyLast _ hwd4
    have hxy : xTest (joinNl ((splitNl f3).map fixLine) ++ List.replicate k '}') = true := by
      calc xTest (joinNl ((splitNl f3).map fixLine) ++ List.replicate k '}')
          = xTest (joinNl (splitNl (joinNl ((splitNl f3).map fixLine)
              ++ List.replicate k '}'))) := by rw [joinNl_splitNl]
        _ = xTestL (splitNl (joinNl ((splitNl f3).map fixLine) ++ List.replicate k '}')) :=
            xTest_joinNl (splitNl_ne_nil _) (fun m hm => mem_splitNl_no_nl hm)
        _ = true := hxl
    -- K step data survives
    have hany4 : (splitNl (joinNl ((splitNl f3).map fixLine) ++ List.replicate k '}')).any matchKAt
        = (splitNl f3).any matchKAt := by
      rw [hsplity, any_matchKAt_modifyLast hrepchars, any_matchKAt_map_fixLine]
    have hfind4 : findMusicIdx (splitNl (joinNl ((splitNl f3).map fixLine) ++ List.replicate k '}'))
        = findMusicIdx (splitNl f3) := by
      rw [hsplity, findMusicIdx_modifyLast hrepchars, findMusicIdx_map_fixLine]
    have hky : kTest (joinNl ((splitNl f3).map fixLine) ++ List.replicate k '}')
        = (splitNl (joinNl ((splitNl f3).map fixLine) ++ List.replicate k '}')).any matchKAt := by
      calc kTest (joinNl ((splitNl f3).map fixLine) ++ List.replicate k '}')
          = kTest (joinNl (splitNl (joinNl ((splitNl f3).map fixLine)
              ++ List.replicate k '}'))) := by rw [joinNl_splitNl]
        _ = _ := kTest_joinNl (splitNl_ne_nil _) (fun m hm => mem_splitNl_no_nl hm)
    have h4ky : kTest (joinNl ((splitNl f3).map fixLine) ++ List.replicate k '}') = true
        ∨ (kTest (joinNl ((splitNl f3).map fixLine) ++ List.replicate k '}') = false
          ∧ (findMusicIdx (splitNl (joinNl ((splitNl f3).map fixLine) ++ List.replicate k '}'))
                = none
            ∨ findMusicIdx (splitNl (joinNl ((splitNl f3).map fixLine) ++ List.replicate k '}'))
                = some 0)) := by
      rcases h3k with h | ⟨h, hf⟩
      · left
        rw [hky, hany4]
        exact h
      · right
        refine ⟨by rw [hky, hany4]; exact h, ?_⟩
        rw [hfind4]
        exact hf
    -- bracket balance of every line of the output
    have h5y : ∀ m ∈ splitNl (joinNl ((splitNl f3).map fixLine) ++ List.replicate k '}'),
        isHeaderLine m = true ∨ ¬ m.count ']' < m.count '[' := by
      intro m hm
      rw [hsplity] at hm
      rcases mem_modifyLast _ hm with hmem | ⟨m₀, hm₀, rfl⟩
      · rcases List.mem_map.1 hmem with ⟨m₁, _, rfl⟩
        exact fixLine_balanced m₁
      · rcases List.mem_map.1 hm₀ with ⟨m₁, _, rfl⟩
        rcases fixLine_balanced m₁ with hh1 | hb1
        · left
          rw [(line_preds_append hrepchars).1]
          exact hh1
        · right
          have e1 : (List.replicate k '}').count ']' = 0 := by
            simp [List.count_replicate]
          have e2 : (List.replicate k '}').count '[' = 0 := by
            simp [List.count_replicate]
          rw [List.count_append, List.count_append, e1, e2]
          omega
    exact validateAndFixAbc_stable h1y hyh hly hxy h4ky h5y h6y
  -- resolve the brace step
  have hbs : ∃ k, (braceStep (joinNl ((splitNl f3).map fixLine))).1
      = joinNl ((splitNl f3).map fixLine) ++ List.replicate k '}'
      ∧ ¬ (joinNl ((splitNl f3).map fixLine) ++ List.replicate k '}').count '}'
          < (joinNl ((splitNl f3).map fixLine) ++ List.replicate k '}').count '{' := by
    unfold braceStep
    by_cases hc : (joinNl ((splitNl f3).map fixLine)).count '}'
        < (joinNl ((splitNl f3).map fixLine)).count '{'
    · rw [if_pos hc]
      refine ⟨_, rfl, ?_⟩
      have e1 : (List.replicate ((joinNl ((splitNl f3).map fixLine)).count '{'
          - (joinNl ((splitNl f3).map fixLine)).count '}') '}').count '}'
          = (joinNl ((splitNl f3).map fixLine)).count '{'
            - (joinNl ((splitNl f3).map fixLine)).count '}' := by
        simp [List.count_replicate]
      have e2 : (List.replicate ((joinNl ((splitNl f3).map fixLine)).count '{'
          - (joinNl ((splitNl f3).map fixLine)).count '}') '}').count '{' = 0 := by
        simp [List.count_replicate]
      rw [List.count_append, List.count_append, e1, e2]
      omega
    · rw [if_neg hc]
      exact ⟨0, by simp, by simpa using hc⟩
  obtain ⟨k, hk1, hk2⟩ := hbs
  rw [hf4, hk1]
  exact main k hk2

theorem hasTriple_cons_ne {c : Char} (h : c ≠ '\x60') (l : List Char) :
    hasTriple (c :: l) = hasTriple l := by
  rw [hasTriple_cons, decide_eq_false h]
  simp

/-- Stability through the `K:` stage: any text `f2` that survives the
fence/trim and `X:` stages unchanged yields, after the remaining three
repair stages, a fixed point of the whole repair. -/
theorem after_x_stable {f2 : List Char}
    (h2t : hasTriple f2 = false)
    (h2h : ∀ c, f2.head? = some c → isWsChar c = false)
    (h2l : ∀ c, f2.getLast? = some c → isWsChar c = false)
    (h2n : f2 ≠ [])
    (h2x : xTestL (splitNl f2) = true) :
    validateAndFixAbc ((braceStep (bracketStep (kStep f2).1).1).1)
      = ⟨(braceStep (bracketStep (kStep f2).1).1).1, []⟩ := by
  have hL2nl : ∀ m ∈ splitNl f2, '\n' ∉ m := fun m hm => mem_splitNl_no_nl hm
  have hany2 : kTest f2 = (splitNl f2).any matchKAt := by
    conv_lhs => rw [← joinNl_splitNl f2]
    exact kTest_joinNl (splitNl_ne_nil f2) hL2nl
  by_cases hkt : kTest f2 = true
  · have hk1 : (kStep f2).1 = f2 := by
      unfold kStep
      rw [if_pos hkt]
    rw [hk1]
    exact after_k_stable h2t h2h h2l h2n h2x (Or.inl (by rw [← hany2]; exact hkt))
  · have hkf : kTest f2 = false := by
      cases h : kTest f2
      · rfl
      · exact absurd h hkt
    have hanyf : (splitNl f2).any matchKAt = false := by
      rw [← hany2]
      exact hkf
    cases hfind : findMusicIdx (splitNl f2) with
    | none =>
      have hk1 : (kStep f2).1 = f2 := by rw [kStep_eq_skip hkf (Or.inl hfind)]
      rw [hk1]
      exact after_k_stable h2t h2h h2l h2n h2x (Or.inr ⟨hanyf, Or.inl hfind⟩)
    | some i =>
      by_cases hi : 0 < i
      · -- the `K:C` line is inserted before the first music line
        have hk1 : (kStep f2).1 = joinNl (insertAt i kHeaderLine (splitNl f2)) := by
          rw [kStep_eq_insert hkf hfind hi]
        obtain ⟨A, bl, B, hAB, hlen, hAnm, hblm⟩ := findMusicIdx_eq_some hfind
        have hins : insertAt i kHeaderLine (splitNl f2) = A ++ kHeaderLine :: bl :: B := by
          rw [hAB, ← hlen, insertAt_length_append]
        -- first and last lines of f2
        obtain ⟨c0, hc0⟩ : ∃ c0, f2.head? = some c0 := by
          cases f2 with
          | nil => exact absurd rfl h2n
          | cons c t => exact ⟨c, rfl⟩
        have hc0w : isWsChar c0 = false := h2h c0 hc0
        have hc0nl : c0 ≠ '\n' := by
          intro he
          rw [he] at hc0w
          simp [isWsChar] at hc0w
        obtain ⟨g0, gs0, hsp⟩ := splitNl_head_of_head hc0 hc0nl
        obtain ⟨A', hA'⟩ : ∃ A', A = (c0 :: g0) :: A' := by
          cases A with
          | nil =>
            rw [List.length_nil] at hlen
            omega
          | cons a1 A' =>
            have he : a1 :: (A' ++ bl :: B) = (c0 :: g0) :: gs0 := by
              rw [← List.cons_append, ← hAB, hsp]
            injection he with he1 _
            exact ⟨A', by rw [he1]⟩
        obtain ⟨cl, hcl⟩ : ∃ cl, f2.getLast? = some cl :=
          Option.isSome_iff_exists.mp (List.getLast?_isSome.mpr h2n)
        have hclw : isWsChar cl = false := h2l cl hcl
        have hclnl : cl ≠ '\n' := by
          intro he
          rw [he] at hclw
          simp [isWsChar] at hclw
        obtain ⟨gl, hgl1, hgl2⟩ := splitNl_getLast_of_last hcl hclnl
        have hglne : gl ≠ [] := by
          intro he
          rw [he] at hgl2
          simp at hgl2
        -- membership in the inserted line list
        have hmemL' : ∀ m ∈ A ++ kHeaderLine :: bl :: B, m ∈ splitNl f2 ∨ m = kHeaderLine := by
          intro m hm
          rcases List.mem_append.1 hm with h | h
          · exact Or.inl (by rw [hAB]; exact List.mem_append_left _ h)
          · rcases List.mem_cons.1 h with h | h
            · exact Or.inr h
            · exact Or.inl (by rw [hAB]; exact List.mem_append_right _ h)
        have hL'nl : ∀ m ∈ A ++ kHeaderLine :: bl :: B, '\n' ∉ m := by
          intro m hm
          rcases hmemL' m hm with h | h
          · exact hL2nl m h
          · rw [h]
            decide
        have hL'ne : A ++ kHeaderLine :: bl :: B ≠ [] := by
          rw [hA']
          simp
        have hsplit' : splitNl (joinNl (A ++ kHeaderLine :: bl :: B))
            = A ++ kHeaderLine :: bl :: B := splitNl_joinNl hL'ne hL'nl
        -- the invariants of the inserted text
        have h3t : hasTriple (joinNl (A ++ kHeaderLine :: bl :: B)) = false := by
          apply hasTriple_joinNl
          intro m hm
          rcases hmemL' m hm with h | h
          · exact hasTriple_mem_joinNl (by rw [joinNl_splitNl]; exact h2t) h
          · rw [h]
            decide
        have hjh : (joinNl (A ++ kHeaderLine :: bl :: B)).head? = some c0 := by
          rw [hA', List.cons_append, joinNl_head? (by simp) _]
          rfl
        have h3h : ∀ c, (joinNl (A ++ kHeaderLine :: bl :: B)).head? = some c
            → isWsChar c = false := by
          intro c hc
          rw [hjh] at hc
          injection hc with hc
          rw [← hc]
          exact hc0w
        have hlast' : (A ++ kHeaderLine :: bl :: B).getLast? = some gl := by
          have h1 : (A ++ bl :: B).getLast? = some gl := by
            rw [← hAB]
            exact hgl1
          rw [List.getLast?_append] at h1 ⊢
          rw [List.getLast?_cons_cons]
          exact h1
        have h3l : ∀ c, (joinNl (A ++ kHeaderLine :: bl :: B)).getLast? = some c
            → isWsChar c = false := by
          intro c hc
          rw [joinNl_getLast? hlast' hglne, hgl2] at hc
          injection hc with hc
          rw [← hc]
          exact hclw
        have h3n : joinNl (A ++ kHeaderLine :: bl :: B) ≠ [] := by
          rw [hA', List.cons_append]
          exact joinNl_ne_nil_of_head (by simp) _
        -- the X: header test survives the insertion
        obtain ⟨P, t, S, hPS, hw⟩ := xTestL_elim h2x
        have hx' : xTestL (A ++ kHeaderLine :: bl :: B) = true := by
          have heq : P ++ ('X' :: ':' :: t) :: S = A ++ bl :: B := by
            rw [← hPS, ← hAB]
          rcases List.append_eq_append_iff.1 heq with ⟨a', hA2, hXS⟩ | ⟨c', hP2, hbB⟩
          · cases a' with
            | nil =>
              rw [List.append_nil] at hA2
              rw [List.nil_append] at hXS
              injection hXS with hXS1 hXS2
              rw [hA2, ← hXS1, ← hXS2]
              have he : P ++ kHeaderLine :: ('X' :: ':' :: t) :: S
                  = (P ++ [kHeaderLine]) ++ ('X' :: ':' :: t) :: S := by simp
              rw [he]
              exact xTestL_intro hw
            | cons a1 a'' =>
              rw [List.cons_append] at hXS
              injection hXS with hXS1 hXS2
              rw [hA2, ← hXS1]
              have he : (P ++ ('X' :: ':' :: t) :: a'') ++ kHeaderLine :: bl :: B
                  = P ++ ('X' :: ':' :: t) :: (a'' ++ kHeaderLine :: bl :: B) := by simp
              rw [he]
              apply xTestL_intro
              apply wsdL_insert_before_music kHeaderLine _ hblm
              rw [← hXS2]
              exact hw
          · cases c' with
            | nil =>
              rw [List.append_nil] at hP2
              rw [List.nil_append] at hbB
              injection hbB with hbB1 hbB2
              rw [hbB1, hbB2]
              have he : A ++ kHeaderLine :: ('X' :: ':' :: t) :: S
                  = (A ++ [kHeaderLine]) ++ ('X' :: ':' :: t) :: S := by simp
              rw [he]
              exact xTestL_intro hw
            | cons b1 c'' =>
              rw [List.cons_append] at hbB
              injection hbB with hbB1 hbB2
              rw [hbB2]
              have he : A ++ kHeaderLine :: bl :: (c'' ++ ('X' :: ':' :: t) :: S)
                  = (A ++ kHeaderLine :: bl :: c'') ++ ('X' :: ':' :: t) :: S := by simp
              rw [he]
              exact xTestL_intro hw
        have h3x : xTestL (splitNl (joinNl (A ++ kHeaderLine :: bl :: B))) = true := by
          rw [hsplit']
          exact hx'
        have h3k : (splitNl (joinNl (A ++ kHeaderLine :: bl :: B))).any matchKAt = true := by
          rw [hsplit', List.any_eq_true]
          exact ⟨kHeaderLine, by simp, by decide⟩
        rw [hk1, hins]
        exact after_k_stable h3t h3h h3l h3n h3x (Or.inl h3k)
      · have hi0 : i = 0 := by omega
        subst hi0
        have hk1 : (kStep f2).1 = f2 := by rw [kStep_eq_skip hkf (Or.inr hfind)]
        rw [hk1]
        exact after_k_stable h2t h2h h2l h2n h2x (Or.inr ⟨hanyf, Or.inr hfind⟩)

/-- Idempotence of the repair: whenever the stripped-and-trimmed input
is nonempty, reapplying `validateAndFixAbc` to its own output returns
that output unchanged with no further fixes. -/
theorem validateAndFixAbc_idem {x : List Char}
    (hne : jsTrim (stripTicks (stripFenceAbc x)) ≠ []) :
    validateAndFixAbc ((validateAndFixAbc x).abc)
      = ⟨(validateAndFixAbc x).abc, []⟩ := by
  have hzt : hasTriple (jsTrim (stripTicks (stripFenceAbc x))) = false :=
    hasTriple_jsTrim (hasTriple_stripTicks _)
  have hzh : ∀ c, (jsTrim (stripTicks (stripFenceAbc x))).head? = some c
      → isWsChar c = false := fun _ hc => jsTrim_head_not_ws hc
  have hzl : ∀ c, (jsTrim (stripTicks (stripFenceAbc x))).getLast? = some c
      → isWsChar c = false := fun _ hc => jsTrim_last_not_ws hc
  have habc : (validateAndFixAbc x).abc
      = (braceStep (bracketStep (kStep
          (xStep (jsTrim (stripTicks (stripFenceAbc x)))).1).1).1).1 := rfl
  by_cases hx : xTest (jsTrim (stripTicks (stripFenceAbc x))) = true
  · have hxs1 : (xStep (jsTrim (stripTicks (stripFenceAbc x)))).1
        = jsTrim (stripTicks (stripFenceAbc x)) := by
      unfold xStep
      rw [if_pos hx]
    have hxl : xTestL (splitNl (jsTrim (stripTicks (stripFenceAbc x)))) = true := by
      rw [← xTest_joinNl (splitNl_ne_nil _) (fun m hm => mem_splitNl_no_nl hm),
        joinNl_splitNl]
      exact hx
    rw [habc, hxs1]
    exact after_x_stable hzt hzh hzl hne hxl
  · have hxs1 : (xStep (jsTrim (stripTicks (stripFenceAbc x)))).1
        = 'X' :: ':' :: '1' :: '\n' :: jsTrim (stripTicks (stripFenceAbc x)) := by
      unfold xStep
      rw [if_neg hx]
    have h2t : hasTriple ('X' :: ':' :: '1' :: '\n' :: jsTrim (stripTicks (stripFenceAbc x)))
        = false := by
      rw [hasTriple_cons_ne (by decide), hasTriple_cons_ne (by decide),
        hasTriple_cons_ne (by decide), hasTriple_cons_ne (by decide)]
      exact hzt
    have h2h : ∀ c, ('X' :: ':' :: '1' :: '\n'
          :: jsTrim (stripTicks (stripFenceAbc x))).head? = some c
        → isWsChar c = false := by
      intro c hc
      injection hc with hc
      rw [← hc]
      decide
    have h2l : ∀ c, ('X' :: ':' :: '1' :: '\n'
          :: jsTrim (stripTicks (stripFenceAbc x))).getLast? = some c
        → isWsChar c = false := by
      intro c hc
      have he : ('X' :: ':' :: '1' :: '\n' :: jsTrim (stripTicks (stripFenceAbc x)))
          = ['X', ':', '1', '\n'] ++ jsTrim (stripTicks (stripFenceAbc x)) := rfl
      rw [he, List.getLast?_append] at hc
      obtain ⟨cl, hcl⟩ : ∃ cl, (jsTrim (stripTicks (stripFenceAbc x))).getLast? = some cl :=
        Option.isSome_iff_exists.mp (List.getLast?_isSome.mpr hne)
      rw [hcl] at hc
      have hc2 : (some cl : Option Char) = some c := hc
      injection hc2 with hc2
      rw [← hc2]
      exact hzl cl hcl
    have h2n : ('X' :: ':' :: '1' :: '\n' :: jsTrim (stripTicks (stripFenceAbc x))) ≠ [] := by
      simp
    have hw1 : wsdL ['1'] (splitNl (jsTrim (stripTicks (stripFenceAbc x)))) = true := by
      rw [wsdL_of_digit (show (['1'] : List Char).dropWhile isWsChar = ['1'] by decide)]
      decide
    have h2x : xTestL (splitNl ('X' :: ':' :: '1' :: '\n'
        :: jsTrim (stripTicks (stripFenceAbc x)))) = true := by
      have he : ('X' :: ':' :: '1' :: '\n' :: jsTrim (stripTicks (stripFenceAbc x)))
          = ['X', ':', '1'] ++ '\n' :: jsTrim (stripTicks (stripFenceAbc x)) := rfl
      rw [he, splitNl_append_sep (by decide)]
      exact @xTestL_intro [] (splitNl (jsTrim (stripTicks (stripFenceAbc x)))) ['1'] hw1
    rw [habc, hxs1]
    exact after_x_stable h2t h2h h2l h2n h2x

/-! ## C2 (amended): idempotence on nonempty stripped input -/

/-- C2 (amended): `validateAndFixAbc` is idempotent on every input whose
text after code-fence stripping and trimming is nonempty — the second
application returns its input unchanged with an empty fixes list. -/
theorem c2_amended (x : List Char)
    (hne : jsTrim (stripTicks (stripFenceAbc x)) ≠ []) :
    validateAndFixAbc ((validateAndFixAbc x).abc)
      = ⟨(validateAndFixAbc x).abc, []⟩ :=
  validateAndFixAbc_idem hne

/-- Witness for C2 (amended) at a concrete input that needs repairs. -/
theorem c2_amended_witness :
    jsTrim (stripTicks (stripFenceAbc "K:C\nC D [E".toList)) ≠ []
    ∧ validateAndFixAbc ((validateAndFixAbc "K:C\nC D [E".toList).abc)
      = ⟨(validateAndFixAbc "K:C\nC D [E".toList).abc, []⟩ :=
  ⟨by decide, c2_amended _ (by decide)⟩

/-! ## C5 (amended): the empty-response fallbacks -/

/-- C5 (amended): a missing or empty pass-1 engine response aborts the
request as a fatal server error; an empty pass-2 response is absorbed —
the orchestrator falls back to the pass-1 validated text, and provided
the critical-error check passes on its re-validation, the response
carries exactly that pass-1 validated text and the pass-1 fixes. -/
theorem c5_amended (raw1 raw2 rawRetry : List Char) :
    (jsTrim raw1 = [] → postModel raw1 raw2 rawRetry = RouteResult.serverError)
    ∧ (jsTrim raw1 ≠ [] → jsTrim raw2 = [] →
        hasCriticalErrors (validateAndFixAbc
            ((validateAndFixAbc (jsTrim raw1)).abc)).abc = [] →
        postModel raw1 raw2 rawRetry
          = RouteResult.ok (validateAndFixAbc (jsTrim raw1)).abc 2
              (validateAndFixAbc (jsTrim raw1)).fixes) := by
  constructor
  · intro h
    simp only [postModel]
    rw [if_pos h]
  · intro h1 h2 hcrit
    have hz : jsTrim (stripTicks (stripFenceAbc (jsTrim raw1))) ≠ [] := by
      intro hz0
      have hv1 : (validateAndFixAbc (jsTrim raw1)).abc = ['X', ':', '1', '\n'] := by
        unfold validateAndFixAbc
        rw [hz0]
        decide
      rw [hv1] at hcrit
      exact absurd hcrit (by decide)
    have hid : validateAndFixAbc ((validateAndFixAbc (jsTrim raw1)).abc)
        = ⟨(validateAndFixAbc (jsTrim raw1)).abc, []⟩ := validateAndFixAbc_idem hz
    simp only [postModel]
    rw [if_neg h1, if_pos h2, hid]
    rw [hid] at hcrit
    rw [if_pos hcrit]
    simp

/-- Witness for C5 (amended): an empty pass-1 response is fatal, and an
empty pass-2 response falls back to the pass-1 validated text. -/
theorem c5_amended_witness :
    (jsTrim "".toList = []
      ∧ postModel "".toList "".toList "".toList = RouteResult.serverError)
    ∧ (jsTrim "X:1\nM:4/4\nK:C\nCDEF|GABc|".toList ≠ []
      ∧ jsTrim "".toList = []
      ∧ hasCriticalErrors (validateAndFixAbc ((validateAndFixAbc
            (jsTrim "X:1\nM:4/4\nK:C\nCDEF|GABc|".toList)).abc)).abc = []
      ∧ postModel "X:1\nM:4/4\nK:C\nCDEF|GABc|".toList "".toList "".toList
        = RouteResult.ok
            (validateAndFixAbc (jsTrim "X:1\nM:4/4\nK:C\nCDEF|GABc|".toList)).abc 2
            (validateAndFixAbc (jsTrim "X:1\nM:4/4\nK:C\nCDEF|GABc|".toList)).fixes) :=
  ⟨⟨by decide, (c5_amended "".toList "".toList "".toList).1 (by decide)⟩,
   ⟨by decide, by decide, by decide,
    (c5_amended "X:1\nM:4/4\nK:C\nCDEF|GABc|".toList "".toList "".toList).2
      (by decide) (by decide) (by decide)⟩⟩

/-! ## C7 (amended): the two-bracket one-brace scenario yields two fixes -/

/-- C7 (amended): on a notation text that survives the fence/trim stage
and has both headers, with one non-header line containing two unclosed
`[` and one unclosed `{` over the whole document, the repair appends
exactly two `]` to that line and one `}` at the end, and records
exactly two fixes: one per-line bracket fix covering both closers, and
one brace fix. -/
theorem c7_amended {t l : List Char} {L1 L2 : List (List Char)}
    (hstrip : jsTrim (stripTicks (stripFenceAbc t)) = t)
    (hx : xTest t = true)
    (hk : kTest t = true)
    (hsplit : splitNl t = L1 ++ l :: L2)
    (hhd : isHeaderLine l = false)
    (hcl : l.count '[' = l.count ']' + 2)
    (hoth : ∀ m ∈ L1 ++ L2, isHeaderLine m = true ∨ ¬ m.count ']' < m.count '[')
    (hbrace : t.count '{' = t.count '}' + 1) :
    validateAndFixAbc t
      = ⟨joinNl (L1 ++ (l ++ [']', ']']) :: L2) ++ ['}'],
         ["Line " ++ toString (L1.length + 1) ++ ": Closed 2 unclosed bracket(s)",
          "Closed unclosed grace note braces"]⟩
      ∧ (validateAndFixAbc t).fixes.length = 2 := by
  have hoth1 : ∀ m ∈ L1, isHeaderLine m = true ∨ ¬ m.count ']' < m.count '[' :=
    fun m hm => hoth m (List.mem_append_left _ hm)
  have hoth2 : ∀ m ∈ L2, isHeaderLine m = true ∨ ¬ m.count ']' < m.count '[' :=
    fun m hm => hoth m (List.mem_append_right _ hm)
  have hxs : xStep t = (t, []) := by
    unfold xStep
    rw [if_pos hx]
  have hks : kStep t = (t, []) := by
    unfold kStep
    rw [if_pos hk]
  have happ : ∀ (u : List (List Char)) (i : ℕ) (v : List (List Char)),
      bracketMapLines i (u ++ v)
        = bracketMapLines i u ++ bracketMapLines (i + u.length) v := by
    intro u
    induction u with
    | nil =>
      intro i v
      simp [bracketMapLines]
    | cons m ms ih =>
      intro i v
      rw [List.cons_append, bracketMapLines_cons, bracketMapLines_cons, ih (i + 1) v]
      have he : i + (m :: ms).length = i + 1 + ms.length := by
        rw [List.length_cons]
        omega
      rw [he, List.cons_append]
  have hclean : ∀ (L : List (List Char)),
      (∀ m ∈ L, isHeaderLine m = true ∨ ¬ m.count ']' < m.count '[') →
      ∀ i, bracketMapLines i L = L.map (fun m => (m, ([] : List String))) := by
    intro L
    induction L with
    | nil =>
      intro _ i
      rfl
    | cons m Ms ih =>
      intro hmem i
      rw [bracketMapLines_cons, List.map_cons]
      have hm : bracketFixLine i m = (m, []) := by
        rcases hmem m (by simp) with hhd1 | hb1
        · unfold bracketFixLine
          rw [if_pos hhd1]
        · unfold bracketFixLine
          split
          · rfl
          · dsimp only
            rw [if_neg hb1]
      rw [hm, ih (fun m2 hm2 => hmem m2 (List.mem_cons_of_mem _ hm2)) (i + 1)]
  have hfst : ∀ L : List (List Char),
      (L.map (fun m => (m, ([] : List String)))).map Prod.fst = L := by
    intro L
    have hcomp : (Prod.fst ∘ fun m : List Char => (m, ([] : List String))) = id := rfl
    rw [List.map_map, hcomp, List.map_id]
  have hsnd : ∀ L : List (List Char),
      ((L.map (fun m => (m, ([] : List String)))).map Prod.snd).flatten
        = ([] : List String) := by
    intro L
    rw [List.map_map, List.flatten_eq_nil_iff]
    intro u hu
    rcases List.mem_map.1 hu with ⟨m, _, rfl⟩
    rfl
  have hlit : (": Closed " ++ (toString (2 : ℕ) ++ " unclosed bracket(s)") : String)
      = ": Closed 2 unclosed bracket(s)" := by decide
  have hstr : ∀ s : String,
      "Line " ++ s ++ ": Closed " ++ toString (2 : ℕ) ++ " unclosed bracket(s)"
        = "Line " ++ s ++ ": Closed 2 unclosed bracket(s)" := by
    intro s
    rw [String.append_assoc, String.append_assoc, hlit]
  have hfix : ∀ i : ℕ, bracketFixLine i l
      = (l ++ [']', ']'],
         ["Line " ++ toString (i + 1) ++ ": Closed 2 unclosed bracket(s)"]) := by
    intro i
    unfold bracketFixLine
    rw [if_neg (by simp [hhd])]
    dsimp only
    rw [if_pos (by omega)]
    have h2 : l.count '[' - l.count ']' = 2 := by omega
    rw [h2, hstr]
    rfl
  have hbr : bracketStep t
      = (joinNl (L1 ++ (l ++ [']', ']']) :: L2),
         ["Line " ++ toString (L1.length + 1) ++ ": Closed 2 unclosed bracket(s)"]) := by
    unfold bracketStep
    dsimp only
    rw [hsplit, happ L1 0 (l :: L2), Nat.zero_add, bracketMapLines_cons, hfix L1.length,
      hclean L1 hoth1 0, hclean L2 hoth2 (L1.length + 1)]
    rw [List.map_append, List.map_cons, List.map_append, List.map_cons, hfst L1, hfst L2]
    rw [List.flatten_append, List.flatten_cons, hsnd L1, hsnd L2]
    simp
  have hcnt : ∀ ch : Char, ch ≠ '\n' → ch ≠ ']' →
      (joinNl (L1 ++ (l ++ [']', ']']) :: L2)).count ch = t.count ch := by
    intro ch hn hrb
    conv_rhs => rw [← joinNl_splitNl t, hsplit]
    rw [count_joinNl hn, count_joinNl hn, List.map_append, List.map_cons,
      List.map_append, List.map_cons]
    have he : (l ++ [']', ']']).count ch = l.count ch := by
      rw [List.count_append]
      have h0 : ([']', ']'] : List Char).count ch = 0 := by
        rw [List.count_eq_zero]
        intro hm
        simp at hm
        exact hrb hm
      rw [h0]
      omega
    rw [he]
  have hbc : braceStep (joinNl (L1 ++ (l ++ [']', ']']) :: L2))
      = (joinNl (L1 ++ (l ++ [']', ']']) :: L2) ++ ['}'],
         ["Closed unclosed grace note braces"]) := by
    unfold braceStep
    dsimp only
    rw [hcnt '{' (by decide) (by decide), hcnt '}' (by decide) (by decide)]
    rw [if_pos (by omega)]
    have h1 : t.count '{' - t.count '}' = 1 := by omega
    rw [h1]
    rfl
  have hmain : validateAndFixAbc t
      = ⟨joinNl (L1 ++ (l ++ [']', ']']) :: L2) ++ ['}'],
         ["Line " ++ toString (L1.length + 1) ++ ": Closed 2 unclosed bracket(s)",
          "Closed unclosed grace note braces"]⟩ := by
    show (⟨(braceStep (bracketStep (kStep (xStep
          (jsTrim (stripTicks (stripFenceAbc t)))).1).1).1).1,
        (xStep (jsTrim (stripTicks (stripFenceAbc t)))).2
          ++ (kStep (xStep (jsTrim (stripTicks (stripFenceAbc t)))).1).2
          ++ (bracketStep (kStep (xStep (jsTrim (stripTicks (stripFenceAbc t)))).1).1).2
          ++ (braceStep (bracketStep (kStep (xStep
              (jsTrim (stripTicks (stripFenceAbc t)))).1).1).1).2⟩
        : FixResult) = _
    rw [hstrip, hxs]
    dsimp only
    rw [hks]
    dsimp only
    rw [hbr]
    dsimp only
    rw [hbc]
    rfl
  refine ⟨hmain, ?_⟩
  rw [hmain]
  rfl

/-- Witness for C7 (amended) at the concrete two-bracket one-brace
scenario text. -/
theorem c7_amended_witness :
    jsTrim (stripTicks (stripFenceAbc "X:1\nK:C\n[CE [GB|\n\x7bAB".toList))
        = "X:1\nK:C\n[CE [GB|\n\x7bAB".toList
    ∧ xTest "X:1\nK:C\n[CE [GB|\n\x7bAB".toList = true
    ∧ kTest "X:1\nK:C\n[CE [GB|\n\x7bAB".toList = true
    ∧ splitNl "X:1\nK:C\n[CE [GB|\n\x7bAB".toList
        = [['X', ':', '1'], ['K', ':', 'C']] ++ "[CE [GB|".toList :: [['{', 'A', 'B']]
    ∧ isHeaderLine "[CE [GB|".toList = false
    ∧ ("[CE [GB|".toList).count '[' = ("[CE [GB|".toList).count ']' + 2
    ∧ (∀ m ∈ ([['X', ':', '1'], ['K', ':', 'C']] : List (List Char)) ++ [['{', 'A', 'B']],
        isHeaderLine m = true ∨ ¬ m.count ']' < m.count '[')
    ∧ ("X:1\nK:C\n[CE [GB|\n\x7bAB".toList).count '{'
        = ("X:1\nK:C\n[CE [GB|\n\x7bAB".toList).count '}' + 1
    ∧ (validateAndFixAbc "X:1\nK:C\n[CE [GB|\n\x7bAB".toList
        = ⟨joinNl ([['X', ':', '1'], ['K', ':', 'C']]
              ++ ("[CE [GB|".toList ++ [']', ']']) :: [['{', 'A', 'B']]) ++ ['}'],
           ["Line " ++ toString
                ((([['X', ':', '1'], ['K', ':', 'C']] : List (List Char))).length + 1)
              ++ ": Closed 2 unclosed bracket(s)",
            "Closed unclosed grace note braces"]⟩
        ∧ (validateAndFixAbc "X:1\nK:C\n[CE [GB|\n\x7bAB".toList).fixes.length = 2) :=
  ⟨by decide, by decide, by decide, by decide, by decide, by decide, by decide, by decide,
    c7_amended (by decide) (by decide) (by decide) (by decide) (by decide) (by decide)
      (by decide) (by decide)⟩

end MusicPipeline
